import Mathlib

/-! Verification of the frameserve playout engine (src/playout.rs, src/duration.rs).

The Rust code is shallowly embedded: machine integers (u32/u64/usize) become
Nat, `jiff::Timestamp` becomes a rational number of seconds, fallible code
(unwraps, asserts, panicking arithmetic) returns Option, and the BTreeMap is an
insertion-ordered association list with the same insert/range-lookup semantics
on the key sequences the code actually produces.  The playout-side manifest
entities (`Package`, `Variant`, `Segment`) and `Variant::duration` are consumed
by playout.rs but their definitions are not under src/; they are modelled from
the spec where noted. -/

namespace Frameserve

/-- Kind of a variant rendition: video with pixel dimensions, or audio.
Mirrors `VariantKind` as used in playout.rs (tagged union, exact equality). -/
inductive VariantKind where
  | video (width height : ℕ)
  | audio
deriving DecidableEq, Repr

/-- Modelled from the spec (§3, §6.1; the playout-side `Segment` is not under
src/): one fMP4 fragment with a content-addressed resource (represented by an
id), a start timestamp and a duration in variant-local timebase ticks. -/
structure Segment where
  src : ℕ
  start : ℕ
  duration : ℕ
deriving DecidableEq, Repr

/-- Modelled from the spec (§3, §6.1; the playout-side `Variant` is not under
src/): one rendition of a package.  Only the timebase denominator enters the
step-clock arithmetic (`Duration::new` divides by `time_base.denom()`). -/
structure Variant where
  init : ℕ
  timeBaseNum : ℕ
  timeBaseDen : ℕ
  bitrate : ℕ
  kind : VariantKind
  segments : List Segment
deriving DecidableEq, Repr

/-- Modelled from the spec (§3, §6.1; the playout-side `Package` is not under
src/): one source program with its program id and ordered variants. -/
structure Package where
  vid : ℕ
  variants : List Variant
deriving DecidableEq, Repr

/-- `StepSize::calculate` (src/duration.rs): reduce the timebase denominators
with lcm; the Rust `reduce(..).unwrap()` panics on an empty iterator, which the
embedding models as `none`. -/
def StepSize.calculate : List ℕ → Option ℕ
  | [] => none
  | d :: rest => some (rest.foldl Nat.lcm d)

/-- `Duration::new` (src/duration.rs): `ticks * (step_size / denom)` with
integer (flooring) division, exact whenever `denom` divides `step`. -/
def Duration.new (ticks den step : ℕ) : ℕ :=
  ticks * (step / den)

/-- `Duration::to_seconds` (src/duration.rs) divides the step count by the
step size; the embedding reads the resulting value as an exact rational. -/
def Duration.toSecondsQ (d step : ℕ) : ℚ :=
  (d : ℚ) / (step : ℚ)

/-- Modelled from the spec (§4.3; `Variant::duration` is called by
`Playlist::new` but is not under src/): a variant's duration in step units is
the sum of its segments' durations converted to the step clock. -/
def Variant.durationSteps (v : Variant) (step : ℕ) : ℕ :=
  (v.segments.map (fun s => Duration.new s.duration v.timeBaseDen step)).sum

/-- `BTreeMap::insert` on an association list kept sorted by key: overwrite an
equal key, otherwise place the entry before the first larger key. -/
def btInsert {α : Type} (k : ℕ) (v : α) : List (ℕ × α) → List (ℕ × α)
  | [] => [(k, v)]
  | (k', v') :: rest =>
      if k < k' then (k, v) :: (k', v') :: rest
      else if k = k' then (k, v) :: rest
      else (k', v') :: btInsert k v rest

/-- `BTreeMap::range(k..).next()`: the first entry (in key order) whose key is
at least `k`; `none` when every key is below `k`. -/
def btLookupGE {α : Type} (k : ℕ) : List (ℕ × α) → Option (ℕ × α)
  | [] => none
  | (k', v') :: rest => if k ≤ k' then some (k', v') else btLookupGE k rest

/-- `StreamSegment` (playout.rs): duration in step units plus the fragment
resource. -/
structure StreamSegment where
  duration : ℕ
  src : ℕ
deriving DecidableEq, Repr

/-- `StreamSource` (playout.rs): per-stream view of one package, with the
sorted `end-offset-in-source ↦ local-segment-index` lookup and the half-open
range `[segFrom, segTo)` into the stream's flat segment vector. -/
structure StreamSource where
  vid : ℕ
  init : ℕ
  segmentLookup : List (ℕ × ℕ)
  segFrom : ℕ
  segTo : ℕ
deriving DecidableEq, Repr

/-- The accumulating loop of `StreamSource::from_variant`: running end offset,
local segment index, and the map built so far. -/
def segLookupGo (step den : ℕ) : ℕ → ℕ → List (ℕ × ℕ) → List Segment → List (ℕ × ℕ)
  | _, _, acc, [] => acc
  | running, si, acc, seg :: rest =>
      segLookupGo step den (running + Duration.new seg.duration den step) (si + 1)
        (btInsert (running + Duration.new seg.duration den step) si acc) rest

/-- `StreamSource::from_variant` (playout.rs). -/
def StreamSource.fromVariant (vid : ℕ) (v : Variant) (startIdx step : ℕ) : StreamSource :=
  { vid := vid
    init := v.init
    segmentLookup := segLookupGo step v.timeBaseDen 0 0 [] v.segments
    segFrom := startIdx
    segTo := startIdx + v.segments.length }

/-- `Stream` (playout.rs): one fixed output rendition. -/
structure Stream where
  bitrate : ℕ
  kind : VariantKind
  sources : List StreamSource
  segments : List StreamSegment
deriving DecidableEq, Repr

/-- `Stream::new_video` (playout.rs). -/
def Stream.newVideo (width height bitrate : ℕ) : Stream :=
  { bitrate := bitrate, kind := .video width height, sources := [], segments := [] }

/-- `Stream::new_audio` (playout.rs). -/
def Stream.newAudio (bitrate : ℕ) : Stream :=
  { bitrate := bitrate, kind := .audio, sources := [], segments := [] }

/-- The fixed stream array initialised at the top of `Playlist::new`. -/
def initStreams : List Stream :=
  [Stream.newVideo 1920 1080 5000000,
   Stream.newVideo 1280 720 1500000,
   Stream.newVideo 960 540 400000,
   Stream.newAudio 192000]

/-- The kind of the designated top stream (`top_stream` in `Playlist::new`). -/
def topKind : VariantKind := .video 1920 1080

/-- Index of the first element satisfying the predicate (Rust `Iterator::find`
combined with taking the position, as `iter_mut().find` does on the array). -/
def findFirstIdx {α : Type} (p : α → Bool) : List α → Option ℕ
  | [] => none
  | a :: as => if p a then some 0 else (findFirstIdx p as).map (· + 1)

/-- `Item` (src/schedule.rs); `Playlist::new` stores the cumulative start in
`start` and the cumulative end in the field named `duration`. -/
structure Item where
  vid : ℕ
  start : ℕ
  duration : ℕ
deriving DecidableEq, Repr

/-- The mutable state threaded through the assembly loop of `Playlist::new`:
the four streams, the channel `sources` map, the running playlist duration and
the schedule items. -/
structure BuildState where
  streams : List Stream
  sources : List (ℕ × ℕ × ℕ)
  running : ℕ
  items : List Item
deriving DecidableEq, Repr

/-- `StreamSegment::new` applied to each segment of a variant, including the
`assert_ne!(duration.raw(), 0)`: a zero step duration panics, modelled as
`none`. -/
def stepSegsChecked (step den : ℕ) : List Segment → Option (List StreamSegment)
  | [] => some []
  | seg :: rest =>
      if Duration.new seg.duration den step = 0 then none
      else
        match stepSegsChecked step den rest with
        | none => none
        | some l => some ({ duration := Duration.new seg.duration den step, src := seg.src } :: l)

/-- The unchecked image of `stepSegsChecked` (what the successful run pushes). -/
def stepSegsOf (step den : ℕ) (segs : List Segment) : List StreamSegment :=
  segs.map (fun seg => { duration := Duration.new seg.duration den step, src := seg.src })

/-- One iteration of the inner variant loop of `Playlist::new`: find the first
stream with `bitrate >= variant.bitrate` and equal kind (unwrap: `none` when no
stream matches), extend the channel accumulators when the matched stream is the
top stream, then push the `StreamSource` and the checked `StreamSegment`s. -/
def processVariant (step pi vid : ℕ) (st : BuildState) (v : Variant) : Option BuildState :=
  match findFirstIdx (fun s => decide (v.bitrate ≤ s.bitrate) && decide (s.kind = v.kind)) st.streams with
  | none => none
  | some j =>
    match st.streams.get? j with
    | none => none
    | some s =>
      match stepSegsChecked step v.timeBaseDen v.segments with
      | none => none
      | some segs =>
          some
            { streams := st.streams.set j
                { s with
                  sources := s.sources ++ [StreamSource.fromVariant vid v s.segments.length step]
                  segments := s.segments ++ segs }
              sources :=
                if s.kind = topKind then
                  btInsert (st.running + v.durationSteps step) (st.running, pi) st.sources
                else st.sources
              running :=
                if s.kind = topKind then st.running + v.durationSteps step else st.running
              items :=
                if s.kind = topKind then
                  st.items ++ [{ vid := vid, start := st.running, duration := st.running + v.durationSteps step }]
                else st.items }

/-- The inner loop over a package's variants. -/
def goVariants (step pi vid : ℕ) (st : BuildState) : List Variant → Option BuildState
  | [] => some st
  | v :: vs =>
      match processVariant step pi vid st v with
      | none => none
      | some st' => goVariants step pi vid st' vs

/-- The outer loop over the enumerated packages. -/
def goPackages (step : ℕ) (st : BuildState) (pi : ℕ) : List Package → Option BuildState
  | [] => some st
  | pkg :: rest =>
      match goVariants step pi pkg.vid st pkg.variants with
      | none => none
      | some st' => goPackages step st' (pi + 1) rest

/-- `Playlist` (playout.rs): the channel.  `start` is the absolute epoch
anchor in seconds; `sources` maps cumulative end to (cumulative start, package
index); `duration` is the final running playlist duration. -/
structure Playlist where
  start : ℚ
  sources : List (ℕ × ℕ × ℕ)
  step : ℕ
  streams : List Stream
  duration : ℕ
  items : List Item
deriving DecidableEq, Repr

/-- The timebase denominators of every variant of every package, in the order
`Playlist::new` feeds them to `StepSize::calculate`. -/
def densOf (packages : List Package) : List ℕ :=
  packages.flatMap (fun p => p.variants.map (fun v => v.timeBaseDen))

/-- `Playlist::new` (playout.rs).  Returns `none` exactly when the Rust code
panics: empty timebase iterator, a variant matching no stream, or a zero step
duration hitting the `StreamSegment::new` assertion. -/
def Playlist.new (start : ℚ) (packages : List Package) : Option Playlist :=
  match StepSize.calculate (densOf packages) with
  | none => none
  | some step =>
    match goPackages step { streams := initStreams, sources := [], running := 0, items := [] } 0 packages with
    | none => none
    | some st =>
        some
          { start := start
            sources := st.sources
            step := step
            streams := st.streams
            duration := st.running
            items := st.items }

/-- `Playhead` (playout.rs). -/
structure Playhead where
  discontinuity : ℕ
  loopIndex : ℕ
  sourceIndex : ℕ
  offsetInSource : ℕ
deriving DecidableEq, Repr

/-- `Playlist::at` (playout.rs).  `now.since(start).total(Second) as u64`
truncates the (possibly negative) span of seconds toward zero and saturates at
zero, i.e. `(⌊now − start⌋).toNat`; the result is scaled by the configured
`speed` (modelled from the spec §6.3, the field is absent from src/config.rs)
and converted with `Duration::new(_, 1/1, step)`.  `div_mod_floor` panics on a
zero playlist duration and the sources lookup is unwrapped, both modelled as
`none`.  This is the step-clock stage of `Playlist::at`, taking the already
cast whole-second count. -/
def Playlist.atSeconds (pl : Playlist) (speed nsec : ℕ) : Option Playhead :=
  let elapsed := Duration.new (nsec * speed) 1 pl.step
  if pl.duration = 0 then none
  else
    match btLookupGE (elapsed % pl.duration) pl.sources with
    | none => none
    | some e =>
        some
          { discontinuity := (elapsed / pl.duration) * pl.sources.length + e.2.2
            loopIndex := elapsed / pl.duration
            sourceIndex := e.2.2
            offsetInSource := (elapsed % pl.duration) - e.2.1 }

/-- `Playlist::at` on a wall-clock timestamp: the truncating, saturating cast
of the elapsed seconds feeds the step-clock stage above. -/
def Playlist.atTime (pl : Playlist) (speed : ℕ) (now : ℚ) : Option Playhead :=
  pl.atSeconds speed (Int.floor (now - pl.start)).toNat

/-- The shared prefix of `Stream::queue` and `Stream::media_seq`: the first
segment of the source whose end offset is at least the playhead offset, or the
number of lookup entries when none is (`unwrap_or(len)`). -/
def startSegIdx (src : StreamSource) (off : ℕ) : ℕ :=
  match btLookupGE off src.segmentLookup with
  | some e => e.2
  | none => src.segmentLookup.length

/-- `Stream::media_seq` (playout.rs); indexing `sources[playhead.source_index]`
panics when out of bounds, modelled as `none`. -/
def Stream.mediaSeq (s : Stream) (ph : Playhead) : Option ℕ :=
  (s.sources.get? ph.sourceIndex).map
    (fun src => ph.loopIndex * s.segments.length + src.segFrom + startSegIdx src ph.offsetInSource)

/-- `QueueItem` (playout.rs). -/
structure QueueItem where
  discontinuity : ℕ
  source : StreamSource
  segment : StreamSegment
deriving DecidableEq, Repr

/-- Slicing `segments[a..b]` and tagging each segment with a discontinuity and
its source, as both arms of `Stream::queue` do; an invalid slice panics,
modelled as `none`. -/
def sliceItems (s : Stream) (disc : ℕ) (src : StreamSource) (a b : ℕ) : Option (List QueueItem) :=
  if a ≤ b ∧ b ≤ s.segments.length then
    some (((s.segments.drop a).take (b - a)).map
      (fun seg => { discontinuity := disc, source := src, segment := seg }))
  else none

/-- The `cycle().skip(source_index+1).enumerate().flat_map(..)` tail of
`Stream::queue`, expanded source block by source block: the block at depth `i`
is the source at index `idx + i` modulo the source count, tagged with
discontinuity `base + i + 1`. -/
def cycleBlocks (s : Stream) (base idx : ℕ) : ℕ → Option (List (List QueueItem))
  | 0 => some []
  | n + 1 =>
      match s.sources.get? (idx % s.sources.length) with
      | none => none
      | some src =>
        match sliceItems s (base + 1) src src.segFrom src.segTo with
        | none => none
        | some block =>
          match cycleBlocks s (base + 1) (idx + 1) n with
          | none => none
          | some rest => some (block :: rest)

/-- `LOOKAHEAD` (playout.rs). -/
def LOOKAHEAD : ℕ := 16

/-- The first `n` items of `Stream::queue` (playout.rs): the remaining
segments of the live source tagged with the playhead's discontinuity, then the
cyclic successor blocks. -/
def Stream.queueTake (s : Stream) (ph : Playhead) (n : ℕ) : Option (List QueueItem) :=
  match s.sources.get? ph.sourceIndex with
  | none => none
  | some src =>
    match sliceItems s ph.discontinuity src (src.segFrom + startSegIdx src ph.offsetInSource) src.segTo with
    | none => none
    | some first =>
      match cycleBlocks s ph.discontinuity (ph.sourceIndex + 1) n with
      | none => none
      | some blocks => some ((first ++ blocks.flatten).take n)

/-- The number of `#EXT-X-DISCONTINUITY` lines the render loop of
`Stream::render_variant_playlist` writes for a given discontinuity sequence:
each item contributes one line per value in `current_discontinuity..item`, and
`current_discontinuity` is then set to the item's discontinuity. -/
def discTagCount (cur : ℕ) : List ℕ → ℕ
  | [] => 0
  | d :: rest => (d - cur) + discTagCount d rest

/-- `discTagCount` applied to a rendered window of queue items, starting (as
the renderer does) from the playhead's discontinuity. -/
def discTagCountItems (cur : ℕ) (items : List QueueItem) : ℕ :=
  discTagCount cur (items.map (fun it => it.discontinuity))

/-- Total step duration of a stream's flat segment vector (the per-stream loop
length the spec reasons about). -/
def streamTotal (s : Stream) : ℕ :=
  (s.segments.map (fun seg => seg.duration)).sum

/-- The stream index a variant is routed to, evaluated against the initial
stream array (the streams' bitrates and kinds never change during assembly). -/
def matchIdx0 (v : Variant) : Option ℕ :=
  findFirstIdx (fun s => decide (v.bitrate ≤ s.bitrate) && decide (s.kind = v.kind)) initStreams

/-- Placeholder variant used as the default of `List.headD`. -/
def dummyVariant : Variant :=
  { init := 0, timeBaseNum := 0, timeBaseDen := 1, bitrate := 0, kind := .audio, segments := [] }

/-- The variant of a package routed to stream `j` (meaningful when exactly one
variant matches stream `j`). -/
def pickVar (j : ℕ) (pkg : Package) : Variant :=
  (pkg.variants.filter (fun v => decide (matchIdx0 v = some j))).headD dummyVariant

/-- Per-package `(vid, variant)` pairs routed to stream `j`, in channel order. -/
def picksOf (j : ℕ) (packages : List Package) : List (ℕ × Variant) :=
  packages.map (fun p => (p.vid, pickVar j p))

/-- The step durations of the top-video (1920×1080) variants, in channel
order: the summands of the canonical loop length. -/
def topDurs (step : ℕ) (packages : List Package) : List ℕ :=
  packages.map (fun p => (pickVar 0 p).durationSteps step)

/-- The ascending boundary association list built from a list of (source or
segment) durations: entry `(r + d₁ + ⋯ + dₖ, f startₖ iₖ)` for each prefix. -/
def boundaryList {α : Type} (f : ℕ → ℕ → α) : ℕ → ℕ → List ℕ → List (ℕ × α)
  | _, _, [] => []
  | r, i, d :: rest => (r + d, f r i) :: boundaryList f (r + d) (i + 1) rest

/-- How many cumulative ends of the duration list (starting at `r`) lie
strictly below `off`; saturates at the list length. -/
def cntBelow (off : ℕ) : ℕ → List ℕ → ℕ
  | _, [] => 0
  | r, d :: rest => if r + d < off then cntBelow off (r + d) rest + 1 else 0

/-- The step durations of a segment list under a timebase denominator. -/
def stepDurs (step den : ℕ) (segs : List Segment) : List ℕ :=
  segs.map (fun s => Duration.new s.duration den step)

/-- The effect of one variant on its matched stream: push the `StreamSource`
and append the converted segments. -/
def appendVariant (step vid : ℕ) (s : Stream) (v : Variant) : Stream :=
  { s with
    sources := s.sources ++ [StreamSource.fromVariant vid v s.segments.length step]
    segments := s.segments ++ stepSegsOf step v.timeBaseDen v.segments }

/-- Fold `appendVariant` over the variants of one package routed to a stream. -/
def buildStreamJ (step vid : ℕ) (s : Stream) : List Variant → Stream
  | [] => s
  | v :: rest => buildStreamJ step vid (appendVariant step vid s v) rest

/-- Fold `buildStreamJ` over the packages: the closed form of what assembly
does to stream `j`. -/
def buildPkgs (step j : ℕ) (s : Stream) : List Package → Stream
  | [] => s
  | pkg :: rest =>
      buildPkgs step j
        (buildStreamJ step pkg.vid s (pkg.variants.filter (fun v => decide (matchIdx0 v = some j)))) rest

/-- The effect of one package's top-matching variants on the channel
accumulators (running duration and sources map). -/
def topExtend (step pi : ℕ) : ℕ → List (ℕ × ℕ × ℕ) → List Variant → ℕ × List (ℕ × ℕ × ℕ)
  | r, src, [] => (r, src)
  | r, src, v :: rest =>
      topExtend step pi (r + v.durationSteps step)
        (btInsert (r + v.durationSteps step) (r, pi) src) rest

/-- `topExtend` folded over the enumerated packages. -/
def topExtendPkgs (step : ℕ) : ℕ → ℕ → List (ℕ × ℕ × ℕ) → List Package → ℕ × List (ℕ × ℕ × ℕ)
  | _, r, src, [] => (r, src)
  | pi, r, src, pkg :: rest =>
      topExtendPkgs step (pi + 1)
        (topExtend step pi r src (pkg.variants.filter (fun v => decide (matchIdx0 v = some 0)))).1
        (topExtend step pi r src (pkg.variants.filter (fun v => decide (matchIdx0 v = some 0)))).2 rest

/-- The closed form of a stream's source list: one `StreamSource` per pick,
with consecutive segment ranges starting at `idx`. -/
def specSources (step : ℕ) : ℕ → List (ℕ × Variant) → List StreamSource
  | _, [] => []
  | idx, pv :: rest =>
      StreamSource.fromVariant pv.1 pv.2 idx step :: specSources step (idx + pv.2.segments.length) rest

/-- The closed form of a stream's flat segment vector. -/
def segsOfPicks (step : ℕ) (pvs : List (ℕ × Variant)) : List StreamSegment :=
  pvs.flatMap (fun pv => stepSegsOf step pv.2.timeBaseDen pv.2.segments)

/-- Per-pick segment counts. -/
def lensOf (pvs : List (ℕ × Variant)) : List ℕ :=
  pvs.map (fun pv => pv.2.segments.length)

/-- The elapsed step count `Playlist::at` computes from a timestamp: whole
seconds since the anchor (clamped at zero), scaled by speed, in step units. -/
def elapsedSteps (startQ : ℚ) (stepN speed : ℕ) (now : ℚ) : ℕ :=
  (Int.floor (now - startQ)).toNat * speed * stepN

/-- A variant the assembly loop accepts without panicking: it matches some
stream and all its segments have a positive step duration (spec §3 requires
`duration > 0`). -/
def VariantOkP (step : ℕ) (v : Variant) : Prop :=
  (matchIdx0 v).isSome = true ∧ ∀ seg ∈ v.segments, 0 < Duration.new seg.duration v.timeBaseDen step

/-- Exactly one variant of the package is routed to stream `j` (spec §3:
every package carries exactly the variant set the channel expects). -/
def PkgExactlyOne (j : ℕ) (pkg : Package) : Prop :=
  (pkg.variants.filter (fun v => decide (matchIdx0 v = some j))).length = 1

/-- The spec's data-model invariants (§3) instantiated for the top stream and
stream `j`: all variants acceptable, unique routing to streams 0 and `j`, and
a non-empty top variant. -/
def InputOk (step j : ℕ) (packages : List Package) : Prop :=
  ∀ pkg ∈ packages,
    (∀ v ∈ pkg.variants, VariantOkP step v) ∧ PkgExactlyOne 0 pkg ∧ PkgExactlyOne j pkg ∧
      (pickVar 0 pkg).segments ≠ []

/-- The assembly loop never changes a stream's bitrate or kind. -/
def streamsShapeOk (l : List Stream) : Prop :=
  l.map (fun s => (s.bitrate, s.kind)) = initStreams.map (fun s => (s.bitrate, s.kind))

/-- The discontinuity values of the cyclic tail of a queue window, block by
block: block `i` (of the given length) carries `d + i + 1`. -/
def discShape (d : ℕ) : List ℕ → List ℕ
  | [] => []
  | len :: rest => List.replicate len (d + 1) ++ discShape (d + 1) rest

instance (step : ℕ) (v : Variant) : Decidable (VariantOkP step v) := by
  unfold VariantOkP; infer_instance

instance (j : ℕ) (pkg : Package) : Decidable (PkgExactlyOne j pkg) := by
  unfold PkgExactlyOne; infer_instance

instance (step j : ℕ) (packages : List Package) : Decidable (InputOk step j packages) := by
  unfold InputOk; infer_instance

/-- Concrete package: vid 1, a single 1920x1080 5 Mbps variant with timebase
1/1 and one 10-tick segment (Variant fields: init, timeBaseNum, timeBaseDen,
bitrate, kind, segments; Segment fields: src, start, duration). -/
def pkgTen1 : Package :=
  ⟨1, [⟨10, 1, 1, 5000000, .video 1920 1080, [⟨100, 0, 10⟩]⟩]⟩

/-- Concrete package: vid 2, like `pkgTen1`. -/
def pkgTen2 : Package :=
  ⟨2, [⟨20, 1, 1, 5000000, .video 1920 1080, [⟨200, 0, 10⟩]⟩]⟩

/-- A two-package library with a source boundary at 10 steps and loop length
20 steps (step size 1, so 1 step = 1 second). -/
def twoPkgs : List Package := [pkgTen1, pkgTen2]

/-- Concrete package with timebase 1/2 and a single 3-tick segment: its loop
length is 3 steps = 1.5 seconds, not a whole number of seconds. -/
def pkgHalf : Package :=
  ⟨1, [⟨10, 1, 2, 5000000, .video 1920 1080, [⟨100, 0, 3⟩]⟩]⟩

/-- Concrete package whose 1080p variant lasts 10 steps but whose 720p variant
lasts only 7 steps: the per-stream totals disagree. -/
def mmPkg : Package :=
  ⟨7, [⟨10, 1, 1, 5000000, .video 1920 1080, [⟨100, 0, 10⟩]⟩, ⟨11, 1, 1, 1500000, .video 1280 720, [⟨101, 0, 7⟩]⟩]⟩

/-- Concrete stream source covering segments 0..2 of its stream (durations 5
and 4 steps; StreamSource fields: vid, init, segmentLookup, segFrom, segTo). -/
def wSrcA : StreamSource := ⟨1, 10, [(5, 0), (9, 1)], 0, 2⟩

/-- Concrete stream source covering segments 2..4 of its stream (durations 6
and 6 steps). -/
def wSrcB : StreamSource := ⟨2, 20, [(6, 0), (12, 1)], 2, 4⟩

/-- Concrete two-source stream used to exercise the queue window
(StreamSegment fields: duration, src). -/
def wStream : Stream :=
  ⟨5000000, .video 1920 1080, [wSrcA, wSrcB], [⟨5, 100⟩, ⟨4, 101⟩, ⟨6, 200⟩, ⟨6, 201⟩]⟩

/-- Concrete playhead two steps into the first source, at discontinuity 3. -/
def wPlayhead : Playhead :=
  { discontinuity := 3, loopIndex := 0, sourceIndex := 0, offsetInSource := 2 }

theorem btInsert_eq_append {α : Type} (k : ℕ) (v : α) :
    ∀ l : List (ℕ × α), (∀ e ∈ l, e.1 < k) → btInsert k v l = l ++ [(k, v)] := by
  intro l
  induction l with
  | nil => intro _; rfl
  | cons e rest ih =>
      intro h
      obtain ⟨k', v'⟩ := e
      have hk : k' < k := h (k', v') (List.mem_cons_self _ _)
      simp only [btInsert]
      rw [if_neg (by omega : ¬ k < k'), if_neg (by omega : ¬ k = k'),
        ih (fun e he => h e (List.mem_cons_of_mem _ he))]
      simp

theorem btLookupGE_eq_none {α : Type} (k : ℕ) :
    ∀ l : List (ℕ × α), (∀ e ∈ l, e.1 < k) → btLookupGE k l = none := by
  intro l
  induction l with
  | nil => intro _; rfl
  | cons e rest ih =>
      intro h
      obtain ⟨k', v'⟩ := e
      have hk : k' < k := h (k', v') (List.mem_cons_self _ _)
      simp only [btLookupGE]
      rw [if_neg (by omega : ¬ k ≤ k')]
      exact ih fun e he => h e (List.mem_cons_of_mem _ he)

theorem btLookupGE_isSome {α : Type} (k : ℕ) :
    ∀ l : List (ℕ × α), (∃ e ∈ l, k ≤ e.1) → (btLookupGE k l).isSome = true := by
  intro l
  induction l with
  | nil => rintro ⟨e, he, _⟩; cases he
  | cons e rest ih =>
      rintro ⟨e', he', hke'⟩
      obtain ⟨k', v'⟩ := e
      simp only [btLookupGE]
      by_cases hk : k ≤ k'
      · rw [if_pos hk]; rfl
      · rw [if_neg hk]
        rcases List.mem_cons.mp he' with h | h
        · subst h; exact absurd hke' hk
        · exact ih ⟨e', h, hke'⟩

theorem btInsert_mem_self {α : Type} (k : ℕ) (v : α) :
    ∀ l : List (ℕ × α), ∃ w, (k, w) ∈ btInsert k v l := by
  intro l
  induction l with
  | nil => exact ⟨v, List.mem_singleton.mpr rfl⟩
  | cons e rest ih =>
      obtain ⟨k', v'⟩ := e
      simp only [btInsert]
      by_cases h1 : k < k'
      · rw [if_pos h1]; exact ⟨v, List.mem_cons_self _ _⟩
      · rw [if_neg h1]
        by_cases h2 : k = k'
        · rw [if_pos h2]; exact ⟨v, List.mem_cons_self _ _⟩
        · rw [if_neg h2]
          obtain ⟨w, hw⟩ := ih
          exact ⟨w, List.mem_cons_of_mem _ hw⟩

theorem btInsert_keys_le {α : Type} (k b : ℕ) (v : α) :
    ∀ l : List (ℕ × α), (∀ e ∈ l, e.1 ≤ b) → k ≤ b → ∀ e ∈ btInsert k v l, e.1 ≤ b := by
  intro l
  induction l with
  | nil =>
      intro _ hk e he
      rcases List.mem_singleton.mp he with rfl
      exact hk
  | cons e0 rest ih =>
      intro h hk e he
      obtain ⟨k', v'⟩ := e0
      simp only [btInsert] at he
      by_cases h1 : k < k'
      · rw [if_pos h1] at he
        rcases List.mem_cons.mp he with rfl | h'
        · exact hk
        · exact h e h'
      · rw [if_neg h1] at he
        by_cases h2 : k = k'
        · rw [if_pos h2] at he
          rcases List.mem_cons.mp he with rfl | h'
          · exact hk
          · exact h e (List.mem_cons_of_mem _ h')
        · rw [if_neg h2] at he
          rcases List.mem_cons.mp he with rfl | h'
          · exact h (k', v') (List.mem_cons_self _ _)
          · exact ih (fun e' he' => h e' (List.mem_cons_of_mem _ he')) hk e h'

theorem cntBelow_le_length (off : ℕ) :
    ∀ ds : List ℕ, ∀ r, cntBelow off r ds ≤ ds.length := by
  intro ds
  induction ds with
  | nil => intro r; simp [cntBelow]
  | cons d rest ih =>
      intro r
      simp only [cntBelow, List.length_cons]
      by_cases h : r + d < off
      · rw [if_pos h]; exact Nat.succ_le_succ (ih (r + d))
      · rw [if_neg h]; omega

theorem cntBelow_mono {off1 off2 : ℕ} (h : off1 ≤ off2) :
    ∀ ds : List ℕ, ∀ r, cntBelow off1 r ds ≤ cntBelow off2 r ds := by
  intro ds
  induction ds with
  | nil => intro r; simp [cntBelow]
  | cons d rest ih =>
      intro r
      simp only [cntBelow]
      by_cases h1 : r + d < off1
      · rw [if_pos h1, if_pos (by omega)]
        exact Nat.succ_le_succ (ih (r + d))
      · rw [if_neg h1]; omega

theorem cntBelow_lt_length (off : ℕ) :
    ∀ ds : List ℕ, ∀ r, ds ≠ [] → off ≤ r + ds.sum → cntBelow off r ds < ds.length := by
  intro ds
  induction ds with
  | nil => intro r h _; exact absurd rfl h
  | cons d rest ih =>
      intro r _ hoff
      simp only [cntBelow, List.length_cons]
      by_cases h1 : r + d < off
      · rw [if_pos h1]
        have hne : rest ≠ [] := by
          rintro rfl
          simp only [List.sum_cons, List.sum_nil] at hoff
          omega
        have : off ≤ (r + d) + rest.sum := by
          simp only [List.sum_cons] at hoff; omega
        exact Nat.succ_lt_succ (ih (r + d) hne this)
      · rw [if_neg h1]; omega

theorem cntBelow_eq_length (off : ℕ) :
    ∀ ds : List ℕ, ∀ r, r + ds.sum < off → cntBelow off r ds = ds.length := by
  intro ds
  induction ds with
  | nil => intro r _; rfl
  | cons d rest ih =>
      intro r hoff
      simp only [List.sum_cons] at hoff
      simp only [cntBelow, List.length_cons]
      rw [if_pos (by omega), ih (r + d) (by omega)]

theorem cntBelow_take_sum_le (off : ℕ) :
    ∀ ds : List ℕ, ∀ r, r ≤ off → r + (ds.take (cntBelow off r ds)).sum ≤ off := by
  intro ds
  induction ds with
  | nil => intro r h; simpa [cntBelow] using h
  | cons d rest ih =>
      intro r hr
      simp only [cntBelow]
      by_cases h1 : r + d < off
      · rw [if_pos h1]
        have := ih (r + d) (by omega)
        simp only [List.take_succ_cons, List.sum_cons]
        omega
      · rw [if_neg h1]
        simpa using hr

theorem boundaryList_length {α : Type} (f : ℕ → ℕ → α) :
    ∀ ds : List ℕ, ∀ r i, (boundaryList f r i ds).length = ds.length := by
  intro ds
  induction ds with
  | nil => intro r i; rfl
  | cons d rest ih =>
      intro r i
      simp only [boundaryList, List.length_cons, ih]

theorem btLookupGE_boundaryList {α : Type} (f : ℕ → ℕ → α) :
    ∀ ds : List ℕ, ∀ r i off, ds ≠ [] → off ≤ r + ds.sum →
      btLookupGE off (boundaryList f r i ds) =
        some (r + (ds.take (cntBelow off r ds + 1)).sum,
          f (r + (ds.take (cntBelow off r ds)).sum) (i + cntBelow off r ds)) := by
  intro ds
  induction ds with
  | nil => intro r i off h _; exact absurd rfl h
  | cons d rest ih =>
      intro r i off _ hoff
      simp only [boundaryList, btLookupGE]
      by_cases hcase : off ≤ r + d
      · rw [if_pos hcase]
        have hc : ¬ r + d < off := by omega
        simp [cntBelow, hc]
      · rw [if_neg hcase]
        have hne : rest ≠ [] := by
          rintro rfl
          simp only [List.sum_cons, List.sum_nil] at hoff
          omega
        have hoff' : off ≤ (r + d) + rest.sum := by
          simp only [List.sum_cons] at hoff; omega
        rw [ih (r + d) (i + 1) off hne hoff']
        have hcnt : cntBelow off r (d :: rest) = cntBelow off (r + d) rest + 1 := by
          simp only [cntBelow]; rw [if_pos (by omega)]
        rw [hcnt]
        simp only [List.take_succ_cons, List.sum_cons]
        congr 2
        · omega
        · congr 1 <;> omega

theorem boundaryList_keys_le {α : Type} (f : ℕ → ℕ → α) :
    ∀ ds : List ℕ, ∀ r i, ∀ e ∈ boundaryList f r i ds, e.1 ≤ r + ds.sum := by
  intro ds
  induction ds with
  | nil => intro r i e he; cases he
  | cons d rest ih =>
      intro r i e he
      simp only [boundaryList] at he
      rcases List.mem_cons.mp he with rfl | h'
      · simp only [List.sum_cons]; omega
      · have := ih (r + d) (i + 1) e h'
        simp only [List.sum_cons]; omega

theorem stepSegsChecked_eq (step den : ℕ) :
    ∀ segs : List Segment, (∀ seg ∈ segs, 0 < Duration.new seg.duration den step) →
      stepSegsChecked step den segs = some (stepSegsOf step den segs) := by
  intro segs
  induction segs with
  | nil => intro _; rfl
  | cons seg rest ih =>
      intro h
      have hpos := h seg (List.mem_cons_self _ _)
      simp only [stepSegsChecked]
      rw [if_neg (by omega), ih (fun s hs => h s (List.mem_cons_of_mem _ hs))]
      simp [stepSegsOf]

theorem stepSegsOf_length (step den : ℕ) (segs : List Segment) :
    (stepSegsOf step den segs).length = segs.length := by
  simp [stepSegsOf]

theorem segLookupGo_eq (step den : ℕ) :
    ∀ segs : List Segment, ∀ r si acc, (∀ e ∈ acc, e.1 ≤ r) →
      (∀ seg ∈ segs, 0 < Duration.new seg.duration den step) →
      segLookupGo step den r si acc segs =
        acc ++ boundaryList (fun _ idx => idx) r si (stepDurs step den segs) := by
  intro segs
  induction segs with
  | nil => intro r si acc _ _; simp [segLookupGo, stepDurs, boundaryList]
  | cons seg rest ih =>
      intro r si acc hacc hpos
      have hd : 0 < Duration.new seg.duration den step := hpos seg (List.mem_cons_self _ _)
      simp only [segLookupGo]
      rw [btInsert_eq_append _ _ _ (fun e he => by have := hacc e he; omega)]
      rw [ih (r + Duration.new seg.duration den step) (si + 1) _
        (by
          intro e he
          rcases List.mem_append.mp he with h' | h'
          · have := hacc e h'; omega
          · rcases List.mem_singleton.mp h' with rfl; rfl)
        (fun s hs => hpos s (List.mem_cons_of_mem _ hs))]
      simp only [stepDurs, List.map_cons, boundaryList, List.append_assoc, List.singleton_append]

theorem fromVariant_lookup (vid startIdx step : ℕ) (v : Variant)
    (hpos : ∀ seg ∈ v.segments, 0 < Duration.new seg.duration v.timeBaseDen step) :
    (StreamSource.fromVariant vid v startIdx step).segmentLookup =
      boundaryList (fun _ idx => idx) 0 0 (stepDurs step v.timeBaseDen v.segments) := by
  simp only [StreamSource.fromVariant]
  rw [segLookupGo_eq step v.timeBaseDen v.segments 0 0 [] (by intro e he; cases he) hpos]
  simp

theorem startSegIdx_eq (src : StreamSource) (off : ℕ) (ds : List ℕ)
    (hlk : src.segmentLookup = boundaryList (fun _ idx => idx) 0 0 ds) :
    startSegIdx src off = cntBelow off 0 ds := by
  rcases eq_or_ne ds [] with rfl | hne
  · simp [startSegIdx, hlk, boundaryList, btLookupGE, cntBelow]
  · by_cases hoff : off ≤ ds.sum
    · simp only [startSegIdx, hlk]
      rw [btLookupGE_boundaryList _ ds 0 0 off hne (by omega)]
      simp
    · simp only [startSegIdx, hlk]
      rw [btLookupGE_eq_none _ _ (fun e he => by
        have := boundaryList_keys_le _ ds 0 0 e he
        omega)]
      rw [boundaryList_length, cntBelow_eq_length off ds 0 (by omega)]

theorem findFirstIdx_lt_length {α : Type} (p : α → Bool) :
    ∀ l : List α, ∀ j, findFirstIdx p l = some j → j < l.length := by
  intro l
  induction l with
  | nil => intro j h; cases h
  | cons a rest ih =>
      intro j h
      simp only [findFirstIdx] at h
      by_cases hp : p a
      · rw [if_pos hp] at h
        cases h
        simp
      · rw [if_neg hp] at h
        rcases Option.map_eq_some'.mp h with ⟨j', hj', rfl⟩
        have := ih j' hj'
        simp only [List.length_cons]
        omega

theorem findFirstIdx_congr {α β : Type} (f : α → β) (p : β → Bool) :
    ∀ l1 l2 : List α, l1.map f = l2.map f →
      findFirstIdx (fun a => p (f a)) l1 = findFirstIdx (fun a => p (f a)) l2 := by
  intro l1
  induction l1 with
  | nil =>
      intro l2 h
      have : l2 = [] := List.map_eq_nil.mp h.symm
      rw [this]
  | cons a l1' ih =>
      intro l2 h
      rcases l2 with _ | ⟨b, l2'⟩
      · exact absurd h (by simp)
      · simp only [List.map_cons, List.cons.injEq] at h
        simp only [findFirstIdx, h.1, ih l2' h.2]

theorem list_set_same {α : Type} : ∀ (l : List α) (j : ℕ) (x : α), l.get? j = some x → l.set j x = l := by
  intro l
  induction l with
  | nil => intro j x h; cases h
  | cons a rest ih =>
      intro j x h
      cases j with
      | zero => cases h; rfl
      | succ j' =>
          simp only [List.get?] at h
          simp only [List.set]
          rw [ih j' x h]

theorem shape_length (l : List Stream) (h : streamsShapeOk l) : l.length = 4 := by
  have := congrArg List.length h
  simpa using this

theorem shape_get (l : List Stream) (j : ℕ) (s : Stream) (h : streamsShapeOk l)
    (hg : l.get? j = some s) :
    ∃ t, initStreams.get? j = some t ∧ s.bitrate = t.bitrate ∧ s.kind = t.kind := by
  have hm : (l.map (fun s => (s.bitrate, s.kind))).get? j = some (s.bitrate, s.kind) := by
    rw [List.get?_map, hg]; rfl
  rw [h, List.get?_map] at hm
  rcases Option.map_eq_some'.mp hm with ⟨t, ht, hts⟩
  exact ⟨t, ht, by simp only [Prod.mk.injEq] at hts; exact ⟨hts.1.symm, hts.2.symm⟩⟩

theorem shape_set (l : List Stream) (j : ℕ) (s s' : Stream) (h : streamsShapeOk l)
    (hg : l.get? j = some s) (hb : s'.bitrate = s.bitrate) (hk : s'.kind = s.kind) :
    streamsShapeOk (l.set j s') := by
  unfold streamsShapeOk
  rw [List.map_set]
  have : (s'.bitrate, s'.kind) = (s.bitrate, s.kind) := by rw [hb, hk]
  rw [this]
  rw [list_set_same _ j _ (by rw [List.get?_map, hg]; rfl)]
  exact h

theorem matchIdx0_lt (v : Variant) (j : ℕ) (h : matchIdx0 v = some j) : j < 4 := by
  have := findFirstIdx_lt_length _ _ _ h
  simpa [initStreams] using this

theorem findFirstIdx_shape (l : List Stream) (h : streamsShapeOk l) (v : Variant) :
    findFirstIdx (fun s => decide (v.bitrate ≤ s.bitrate) && decide (s.kind = v.kind)) l =
      matchIdx0 v := by
  unfold matchIdx0
  have h' : l.map (fun s => (s.bitrate, s.kind)) = initStreams.map (fun s => (s.bitrate, s.kind)) := h
  exact findFirstIdx_congr (fun s => (s.bitrate, s.kind))
    (fun q => decide (v.bitrate ≤ q.1) && decide (q.2 = v.kind)) l initStreams h'

theorem kind_top_iff (l : List Stream) (j : ℕ) (s : Stream) (hsh : streamsShapeOk l)
    (hg : l.get? j = some s) (hj : j < 4) : (s.kind = topKind) ↔ (j = 0) := by
  obtain ⟨t, ht, _, hk⟩ := shape_get l j s hsh hg
  interval_cases j <;>
    simp only [initStreams, Stream.newVideo, Stream.newAudio, List.get?] at ht <;>
    cases ht <;>
    simp [hk, topKind]

theorem processVariant_eq (step pi vid : ℕ) (st : BuildState) (v : Variant) (j : ℕ) (s : Stream)
    (hshape : streamsShapeOk st.streams)
    (hm : matchIdx0 v = some j) (hs : st.streams.get? j = some s)
    (hpos : ∀ seg ∈ v.segments, 0 < Duration.new seg.duration v.timeBaseDen step) :
    processVariant step pi vid st v = some
      { streams := st.streams.set j (appendVariant step vid s v)
        sources :=
          if j = 0 then btInsert (st.running + v.durationSteps step) (st.running, pi) st.sources
          else st.sources
        running := if j = 0 then st.running + v.durationSteps step else st.running
        items :=
          if j = 0 then
            st.items ++ [{ vid := vid, start := st.running, duration := st.running + v.durationSteps step }]
          else st.items } := by
  have hj4 : j < 4 := matchIdx0_lt v j hm
  have htop := kind_top_iff st.streams j s hshape hs hj4
  simp only [processVariant, findFirstIdx_shape st.streams hshape v, hm, hs,
    stepSegsChecked_eq step v.timeBaseDen v.segments hpos]
  simp only [htop]
  simp [appendVariant]

theorem goVariants_eq (step pi vid : ℕ) :
    ∀ (vs : List Variant) (st : BuildState), streamsShapeOk st.streams →
      (∀ v ∈ vs, VariantOkP step v) →
      ∃ st', goVariants step pi vid st vs = some st' ∧ streamsShapeOk st'.streams ∧
        (∀ j s, st.streams.get? j = some s →
          st'.streams.get? j =
            some (buildStreamJ step vid s (vs.filter (fun v => decide (matchIdx0 v = some j))))) ∧
        st'.running =
          (topExtend step pi st.running st.sources
            (vs.filter (fun v => decide (matchIdx0 v = some 0)))).1 ∧
        st'.sources =
          (topExtend step pi st.running st.sources
            (vs.filter (fun v => decide (matchIdx0 v = some 0)))).2 := by
  intro vs
  induction vs with
  | nil =>
      intro st hsh _
      exact ⟨st, rfl, hsh, fun j s hs => by simpa [buildStreamJ] using hs, rfl, rfl⟩
  | cons v rest ih =>
      intro st hsh hok
      obtain ⟨hisSome, hpos⟩ := hok v (List.mem_cons_self _ _)
      obtain ⟨j0, hm⟩ := Option.isSome_iff_exists.mp hisSome
      have hj4 : j0 < 4 := matchIdx0_lt v j0 hm
      have hlen := shape_length st.streams hsh
      have hj0len : j0 < st.streams.length := by omega
      obtain ⟨s0, hs0⟩ : ∃ s0, st.streams.get? j0 = some s0 :=
        ⟨st.streams.get ⟨j0, hj0len⟩, List.get?_eq_get hj0len⟩
      have hpv := processVariant_eq step pi vid st v j0 s0 hsh hm hs0 hpos
      have hsh1 : streamsShapeOk (st.streams.set j0 (appendVariant step vid s0 v)) :=
        shape_set st.streams j0 s0 _ hsh hs0 rfl rfl
      obtain ⟨st', hgo, hsh', hstream, hrun, hsrc⟩ :=
        ih { streams := st.streams.set j0 (appendVariant step vid s0 v)
             sources :=
               if j0 = 0 then btInsert (st.running + v.durationSteps step) (st.running, pi) st.sources
               else st.sources
             running := if j0 = 0 then st.running + v.durationSteps step else st.running
             items :=
               if j0 = 0 then
                 st.items ++ [{ vid := vid, start := st.running, duration := st.running + v.durationSteps step }]
               else st.items }
          hsh1 (fun v' hv' => hok v' (List.mem_cons_of_mem _ hv'))
      refine ⟨st', ?_, hsh', ?_, ?_, ?_⟩
      · simp only [goVariants, hpv, hgo]
      · intro j s hs
        by_cases hjj : j0 = j
        · subst hjj
          have hss : s0 = s := by rw [hs0] at hs; exact Option.some_inj.mp hs
          subst hss
          have hget1 : (st.streams.set j0 (appendVariant step vid s0 v)).get? j0 =
              some (appendVariant step vid s0 v) := by
            rw [List.get?_set_eq, hs0]; rfl
          have := hstream j0 (appendVariant step vid s0 v) hget1
          rw [this]
          have hfil : (v :: rest).filter (fun v' => decide (matchIdx0 v' = some j0)) =
              v :: rest.filter (fun v' => decide (matchIdx0 v' = some j0)) := by
            simp [List.filter_cons, hm]
          rw [hfil]
          rfl
        · have hget1 : (st.streams.set j0 (appendVariant step vid s0 v)).get? j = some s := by
            rw [List.get?_set_ne _ _ hjj, hs]
          have := hstream j s hget1
          rw [this]
          have hfil : (v :: rest).filter (fun v' => decide (matchIdx0 v' = some j)) =
              rest.filter (fun v' => decide (matchIdx0 v' = some j)) := by
            simp only [List.filter_cons]
            rw [if_neg (by simpa [hm] using hjj)]
          rw [hfil]
      · rw [hrun]
        by_cases h0 : j0 = 0
        · subst h0
          have hfil : (v :: rest).filter (fun v' => decide (matchIdx0 v' = some 0)) =
              v :: rest.filter (fun v' => decide (matchIdx0 v' = some 0)) := by
            simp [List.filter_cons, hm]
          rw [hfil]
          simp [topExtend]
        · have hfil : (v :: rest).filter (fun v' => decide (matchIdx0 v' = some 0)) =
              rest.filter (fun v' => decide (matchIdx0 v' = some 0)) := by
            simp only [List.filter_cons]
            rw [if_neg (by simpa [hm] using h0)]
          rw [hfil]
          simp [h0]
      · rw [hsrc]
        by_cases h0 : j0 = 0
        · subst h0
          have hfil : (v :: rest).filter (fun v' => decide (matchIdx0 v' = some 0)) =
              v :: rest.filter (fun v' => decide (matchIdx0 v' = some 0)) := by
            simp [List.filter_cons, hm]
          rw [hfil]
          simp [topExtend]
        · have hfil : (v :: rest).filter (fun v' => decide (matchIdx0 v' = some 0)) =
              rest.filter (fun v' => decide (matchIdx0 v' = some 0)) := by
            simp only [List.filter_cons]
            rw [if_neg (by simpa [hm] using h0)]
          rw [hfil]
          simp [h0]

theorem goPackages_eq (step : ℕ) :
    ∀ (pkgs : List Package) (st : BuildState) (pi : ℕ), streamsShapeOk st.streams →
      (∀ pkg ∈ pkgs, ∀ v ∈ pkg.variants, VariantOkP step v) →
      ∃ st', goPackages step st pi pkgs = some st' ∧ streamsShapeOk st'.streams ∧
        (∀ j s, st.streams.get? j = some s →
          st'.streams.get? j = some (buildPkgs step j s pkgs)) ∧
        st'.running = (topExtendPkgs step pi st.running st.sources pkgs).1 ∧
        st'.sources = (topExtendPkgs step pi st.running st.sources pkgs).2 := by
  intro pkgs
  induction pkgs with
  | nil =>
      intro st pi hsh _
      exact ⟨st, rfl, hsh, fun j s hs => by simpa [buildPkgs] using hs, rfl, rfl⟩
  | cons pkg rest ih =>
      intro st pi hsh hok
      obtain ⟨st1, hgv, hsh1, hstream1, hrun1, hsrc1⟩ :=
        goVariants_eq step pi pkg.vid pkg.variants st hsh
          (hok pkg (List.mem_cons_self _ _))
      obtain ⟨st', hgo, hsh', hstream', hrun', hsrc'⟩ :=
        ih st1 (pi + 1) hsh1 (fun p hp => hok p (List.mem_cons_of_mem _ hp))
      refine ⟨st', ?_, hsh', ?_, ?_, ?_⟩
      · simp only [goPackages, hgv, hgo]
      · intro j s hs
        have h1 := hstream1 j s hs
        have h2 := hstream' j _ h1
        rw [h2]
        rfl
      · rw [hrun', hrun1, hsrc1]
        rfl
      · rw [hsrc', hrun1, hsrc1]
        rfl

theorem filter_eq_pick (j : ℕ) (pkg : Package) (h : PkgExactlyOne j pkg) :
    pkg.variants.filter (fun v => decide (matchIdx0 v = some j)) = [pickVar j pkg] := by
  obtain ⟨x, hx⟩ := List.length_eq_one.mp h
  rw [hx]
  unfold pickVar
  rw [hx]
  rfl

theorem pickVar_mem (j : ℕ) (pkg : Package) (h : PkgExactlyOne j pkg) :
    pickVar j pkg ∈ pkg.variants := by
  have hx := filter_eq_pick j pkg h
  have : pickVar j pkg ∈ pkg.variants.filter (fun v => decide (matchIdx0 v = some j)) := by
    rw [hx]; exact List.mem_singleton.mpr rfl
  exact List.mem_of_mem_filter this

theorem pickVar_matches (j : ℕ) (pkg : Package) (h : PkgExactlyOne j pkg) :
    matchIdx0 (pickVar j pkg) = some j := by
  have hx := filter_eq_pick j pkg h
  have : pickVar j pkg ∈ pkg.variants.filter (fun v => decide (matchIdx0 v = some j)) := by
    rw [hx]; exact List.mem_singleton.mpr rfl
  have := List.of_mem_filter this
  simpa using this

theorem durationSteps_pos (v : Variant) (step : ℕ) (hne : v.segments ≠ [])
    (hpos : ∀ seg ∈ v.segments, 0 < Duration.new seg.duration v.timeBaseDen step) :
    0 < v.durationSteps step := by
  obtain ⟨seg, rest, hsr⟩ := List.exists_cons_of_ne_nil hne
  unfold Variant.durationSteps
  rw [hsr]
  have := hpos seg (by rw [hsr]; exact List.mem_cons_self _ _)
  simp only [List.map_cons, List.sum_cons]
  omega

theorem topExtendPkgs_eq (step : ℕ) :
    ∀ (pkgs : List Package) (pi r : ℕ) (src : List (ℕ × ℕ × ℕ)),
      (∀ pkg ∈ pkgs, PkgExactlyOne 0 pkg ∧ 0 < (pickVar 0 pkg).durationSteps step) →
      (∀ e ∈ src, e.1 ≤ r) →
      topExtendPkgs step pi r src pkgs =
        (r + (pkgs.map (fun p => (pickVar 0 p).durationSteps step)).sum,
         src ++ boundaryList Prod.mk r pi (pkgs.map (fun p => (pickVar 0 p).durationSteps step))) := by
  intro pkgs
  induction pkgs with
  | nil => intro pi r src _ _; simp [topExtendPkgs, boundaryList]
  | cons pkg rest ih =>
      intro pi r src hp hkeys
      obtain ⟨hone, hpos⟩ := hp pkg (List.mem_cons_self _ _)
      simp only [topExtendPkgs, filter_eq_pick 0 pkg hone, topExtend]
      rw [btInsert_eq_append _ _ src (fun e he => by have := hkeys e he; omega)]
      rw [ih (pi + 1) (r + (pickVar 0 pkg).durationSteps step) _
        (fun p hp' => hp p (List.mem_cons_of_mem _ hp'))
        (by
          intro e he
          rcases List.mem_append.mp he with h' | h'
          · have := hkeys e h'; omega
          · rcases List.mem_singleton.mp h' with rfl; rfl)]
      simp only [List.map_cons, List.sum_cons, boundaryList, List.append_assoc,
        List.singleton_append]
      rw [Nat.add_assoc]

theorem buildPkgs_closed (step j : ℕ) :
    ∀ (pkgs : List Package) (s : Stream),
      (∀ pkg ∈ pkgs, PkgExactlyOne j pkg) →
      (buildPkgs step j s pkgs).bitrate = s.bitrate ∧
      (buildPkgs step j s pkgs).kind = s.kind ∧
      (buildPkgs step j s pkgs).sources =
        s.sources ++ specSources step s.segments.length (picksOf j pkgs) ∧
      (buildPkgs step j s pkgs).segments = s.segments ++ segsOfPicks step (picksOf j pkgs) := by
  intro pkgs
  induction pkgs with
  | nil =>
      intro s _
      simp [buildPkgs, picksOf, specSources, segsOfPicks]
  | cons pkg rest ih =>
      intro s hp
      have hone := (hp pkg (List.mem_cons_self _ _))
      simp only [buildPkgs, filter_eq_pick j pkg hone, buildStreamJ]
      obtain ⟨hb, hk, hsrc, hseg⟩ :=
        ih (appendVariant step pkg.vid s (pickVar j pkg))
          (fun p hp' => hp p (List.mem_cons_of_mem _ hp'))
      refine ⟨by rw [hb]; rfl, by rw [hk]; rfl, ?_, ?_⟩
      · rw [hsrc]
        simp only [appendVariant, picksOf, List.map_cons, specSources, List.append_assoc,
          List.singleton_append, List.length_append, stepSegsOf_length]
      · rw [hseg]
        simp only [appendVariant, picksOf, List.map_cons, segsOfPicks, List.flatMap_cons,
          List.append_assoc]

theorem initStreams_get (j : ℕ) (hj : j < 4) :
    ∃ t, initStreams.get? j = some t ∧ t.sources = [] ∧ t.segments = [] := by
  interval_cases j <;> exact ⟨_, rfl, rfl, rfl⟩

theorem new_closed (start : ℚ) (packages : List Package) (step j : ℕ) (hj : j < 4)
    (hstep : StepSize.calculate (densOf packages) = some step)
    (hin : InputOk step j packages) :
    ∃ pl s, Playlist.new start packages = some pl ∧
      pl.start = start ∧ pl.step = step ∧
      pl.duration = (topDurs step packages).sum ∧
      pl.sources = boundaryList Prod.mk 0 0 (topDurs step packages) ∧
      pl.streams.get? j = some s ∧
      s.sources = specSources step 0 (picksOf j packages) ∧
      s.segments = segsOfPicks step (picksOf j packages) := by
  have hvOk : ∀ pkg ∈ packages, ∀ v ∈ pkg.variants, VariantOkP step v :=
    fun pkg hp => (hin pkg hp).1
  obtain ⟨st', hgo, hsh', hstream, hrun, hsrc⟩ :=
    goPackages_eq step packages
      { streams := initStreams, sources := [], running := 0, items := [] } 0 rfl hvOk
  obtain ⟨t, ht, htsrc, htseg⟩ := initStreams_get j hj
  have hb := hstream j t ht
  obtain ⟨_, _, hbsrc, hbseg⟩ :=
    buildPkgs_closed step j packages t (fun pkg hp => (hin pkg hp).2.2.1)
  have htop : ∀ pkg ∈ packages,
      PkgExactlyOne 0 pkg ∧ 0 < (pickVar 0 pkg).durationSteps step := by
    intro pkg hp
    obtain ⟨hall, hone0, _, hne⟩ := hin pkg hp
    refine ⟨hone0, durationSteps_pos _ _ hne ?_⟩
    exact (hall _ (pickVar_mem 0 pkg hone0)).2
  have hext := topExtendPkgs_eq step packages 0 0 [] htop (by intro e he; cases he)
  refine ⟨{ start := start, sources := st'.sources, step := step, streams := st'.streams,
            duration := st'.running, items := st'.items }, buildPkgs step j t packages,
    ?_, rfl, rfl, ?_, ?_, ?_, ?_, ?_⟩
  · simp only [Playlist.new, hstep, hgo]
  · rw [hrun, hext]
    simp [topDurs]
  · rw [hsrc, hext]
    simp [topDurs]
  · exact hb
  · rw [hbsrc, htsrc, htseg]
    rfl
  · rw [hbseg, htseg]
    rfl

theorem elapsedSteps_mono (startQ : ℚ) (stepN speed : ℕ) {now1 now2 : ℚ} (h : now1 ≤ now2) :
    elapsedSteps startQ stepN speed now1 ≤ elapsedSteps startQ stepN speed now2 := by
  unfold elapsedSteps
  have h1 : Int.floor (now1 - startQ) ≤ Int.floor (now2 - startQ) :=
    Int.floor_le_floor (by linarith)
  have h2 : (Int.floor (now1 - startQ)).toNat ≤ (Int.floor (now2 - startQ)).toNat :=
    Int.toNat_le_toNat h1
  exact Nat.mul_le_mul_right _ (Nat.mul_le_mul_right _ h2)

theorem elapsedSteps_clamp (startQ : ℚ) (stepN speed : ℕ) (now : ℚ) (h : now ≤ startQ) :
    elapsedSteps startQ stepN speed now = 0 := by
  unfold elapsedSteps
  have h1 : Int.floor (now - startQ) ≤ 0 := by
    rw [show (0 : ℤ) = Int.floor (0 : ℚ) by simp]
    exact Int.floor_le_floor (by linarith)
  have h2 : (Int.floor (now - startQ)).toNat = 0 := by omega
  rw [h2]
  ring

theorem elapsedSteps_add_whole (startQ : ℚ) (stepN : ℕ) (now : ℚ) (k : ℕ) (h : startQ ≤ now) :
    elapsedSteps startQ stepN 1 (now + (k : ℚ)) = elapsedSteps startQ stepN 1 now + k * stepN := by
  unfold elapsedSteps
  have h1 : Int.floor (now + (k : ℚ) - startQ) = Int.floor (now - startQ) + k := by
    rw [show now + (k : ℚ) - startQ = (now - startQ) + (k : ℕ) by push_cast; ring]
    exact Int.floor_add_nat _ k
  rw [h1]
  have h2 : 0 ≤ Int.floor (now - startQ) := Int.floor_nonneg.mpr (by linarith)
  have h3 : (Int.floor (now - startQ) + (k : ℤ)).toNat = (Int.floor (now - startQ)).toNat + k := by
    omega
  rw [h3]
  ring

theorem atTime_closed (pl : Playlist) (ds : List ℕ) (speed : ℕ) (now : ℚ)
    (hsrc : pl.sources = boundaryList Prod.mk 0 0 ds)
    (hdur : pl.duration = ds.sum) (hpos : 0 < ds.sum) (hne : ds ≠ []) :
    pl.atTime speed now = some
      { discontinuity := (elapsedSteps pl.start pl.step speed now / ds.sum) * ds.length +
          cntBelow (elapsedSteps pl.start pl.step speed now % ds.sum) 0 ds
        loopIndex := elapsedSteps pl.start pl.step speed now / ds.sum
        sourceIndex := cntBelow (elapsedSteps pl.start pl.step speed now % ds.sum) 0 ds
        offsetInSource := elapsedSteps pl.start pl.step speed now % ds.sum -
          (ds.take (cntBelow (elapsedSteps pl.start pl.step speed now % ds.sum) 0 ds)).sum } := by
  have helapsed : Duration.new ((Int.floor (now - pl.start)).toNat * speed) 1 pl.step =
      elapsedSteps pl.start pl.step speed now := by
    unfold Duration.new elapsedSteps
    rw [Nat.div_one]
  have hmod : elapsedSteps pl.start pl.step speed now % ds.sum ≤ 0 + ds.sum :=
    le_of_lt (by simpa using Nat.mod_lt _ hpos)
  unfold Playlist.atTime Playlist.atSeconds
  rw [hdur, if_neg (by omega), helapsed, hsrc,
    btLookupGE_boundaryList Prod.mk ds 0 0 _ hne hmod]
  rw [boundaryList_length]
  simp

theorem processVariant_inv (step pi vid : ℕ) (st st' : BuildState) (v : Variant)
    (h : processVariant step pi vid st v = some st')
    (h1 : ∀ e ∈ st.sources, e.1 ≤ st.running)
    (h2 : st.running = 0 ∨ ∃ e ∈ st.sources, e.1 = st.running) :
    (∀ e ∈ st'.sources, e.1 ≤ st'.running) ∧
      (st'.running = 0 ∨ ∃ e ∈ st'.sources, e.1 = st'.running) := by
  cases hfind : findFirstIdx (fun s => decide (v.bitrate ≤ s.bitrate) && decide (s.kind = v.kind))
      st.streams with
  | none => simp only [processVariant, hfind] at h; cases h
  | some j =>
      cases hget : st.streams.get? j with
      | none => simp only [processVariant, hfind, hget] at h; cases h
      | some s =>
          cases hchk : stepSegsChecked step v.timeBaseDen v.segments with
          | none => simp only [processVariant, hfind, hget, hchk] at h; cases h
          | some segs =>
              simp only [processVariant, hfind, hget, hchk] at h
              have hst' := (Option.some_inj.mp h).symm
              by_cases htop : s.kind = topKind
              · rw [hst']
                simp only [if_pos htop]
                constructor
                · intro e he
                  exact btInsert_keys_le _ _ _ st.sources
                    (fun e' he' => by have := h1 e' he'; omega) (le_refl _) e he
                · right
                  obtain ⟨w, hw⟩ := btInsert_mem_self (st.running + v.durationSteps step)
                    (st.running, pi) st.sources
                  exact ⟨_, hw, rfl⟩
              · rw [hst']
                simp only [if_neg htop]
                exact ⟨h1, h2⟩

theorem goVariants_inv (step pi vid : ℕ) :
    ∀ (vs : List Variant) (st st' : BuildState), goVariants step pi vid st vs = some st' →
      ((∀ e ∈ st.sources, e.1 ≤ st.running) ∧
        (st.running = 0 ∨ ∃ e ∈ st.sources, e.1 = st.running)) →
      (∀ e ∈ st'.sources, e.1 ≤ st'.running) ∧
        (st'.running = 0 ∨ ∃ e ∈ st'.sources, e.1 = st'.running) := by
  intro vs
  induction vs with
  | nil =>
      intro st st' h hi
      cases h
      exact hi
  | cons v rest ih =>
      intro st st' h hi
      unfold goVariants at h
      cases hp : processVariant step pi vid st v with
      | none => rw [hp] at h; cases h
      | some st1 =>
          rw [hp] at h
          exact ih st1 st' h (processVariant_inv step pi vid st st1 v hp hi.1 hi.2)

theorem goPackages_inv (step : ℕ) :
    ∀ (pkgs : List Package) (st : BuildState) (pi : ℕ) (st' : BuildState),
      goPackages step st pi pkgs = some st' →
      ((∀ e ∈ st.sources, e.1 ≤ st.running) ∧
        (st.running = 0 ∨ ∃ e ∈ st.sources, e.1 = st.running)) →
      (∀ e ∈ st'.sources, e.1 ≤ st'.running) ∧
        (st'.running = 0 ∨ ∃ e ∈ st'.sources, e.1 = st'.running) := by
  intro pkgs
  induction pkgs with
  | nil =>
      intro st pi st' h hi
      cases h
      exact hi
  | cons pkg rest ih =>
      intro st pi st' h hi
      unfold goPackages at h
      cases hg : goVariants step pi pkg.vid st pkg.variants with
      | none => rw [hg] at h; cases h
      | some st1 =>
          rw [hg] at h
          exact ih st1 (pi + 1) st' h (goVariants_inv step pi pkg.vid pkg.variants st st1 hg hi)

theorem new_inv (start : ℚ) (packages : List Package) (pl : Playlist)
    (h : Playlist.new start packages = some pl) :
    (∀ e ∈ pl.sources, e.1 ≤ pl.duration) ∧
      (pl.duration = 0 ∨ ∃ e ∈ pl.sources, e.1 = pl.duration) := by
  cases hc : StepSize.calculate (densOf packages) with
  | none => simp only [Playlist.new, hc] at h; cases h
  | some step =>
      cases hg : goPackages step
          { streams := initStreams, sources := [], running := 0, items := [] } 0 packages with
      | none => simp only [Playlist.new, hc, hg] at h; cases h
      | some st =>
          simp only [Playlist.new, hc, hg] at h
          have hpl := Option.some_inj.mp h
          subst hpl
          exact goPackages_inv step packages
            { streams := initStreams, sources := [], running := 0, items := [] } 0 st hg
            ⟨fun e he => absurd he (List.not_mem_nil e), Or.inl rfl⟩

theorem atTime_isSome_of (pl : Playlist) (hd : 0 < pl.duration)
    (hmax : ∃ e ∈ pl.sources, e.1 = pl.duration) (speed : ℕ) (now : ℚ) :
    (pl.atTime speed now).isSome = true := by
  unfold Playlist.atTime Playlist.atSeconds
  rw [if_neg (by omega)]
  obtain ⟨e, he, hke⟩ := hmax
  have hsome := btLookupGE_isSome
    (Duration.new ((Int.floor (now - pl.start)).toNat * speed) 1 pl.step % pl.duration)
    pl.sources ⟨e, he, by rw [hke]; exact le_of_lt (Nat.mod_lt _ hd)⟩
  cases hlk : btLookupGE
      (Duration.new ((Int.floor (now - pl.start)).toNat * speed) 1 pl.step % pl.duration)
      pl.sources with
  | none => rw [hlk] at hsome; cases hsome
  | some e' => rfl

theorem ne_nil_of_sum_pos (l : List ℕ) (h : 0 < l.sum) : l ≠ [] := by
  rintro rfl
  simp at h

theorem sum_take_le (l : List ℕ) (i : ℕ) : (l.take i).sum ≤ l.sum := by
  conv_rhs => rw [← List.take_append_drop i l]
  rw [List.sum_append]
  omega

theorem take_sum_mono (l : List ℕ) {i j : ℕ} (h : i ≤ j) : (l.take i).sum ≤ (l.take j).sum := by
  have h1 : l.take i = (l.take j).take i := by
    rw [List.take_take, Nat.min_eq_left h]
  rw [h1]
  exact sum_take_le (l.take j) i

theorem take_sum_succ (l : List ℕ) :
    ∀ i, i < l.length → (l.take (i + 1)).sum = (l.take i).sum + l.getD i 0 := by
  induction l with
  | nil => intro i h; simp at h
  | cons a rest ih =>
      intro i h
      cases i with
      | zero => simp
      | succ i' =>
          simp only [List.take_succ_cons, List.sum_cons, List.getD_cons_succ]
          rw [ih i' (by simpa using h)]
          omega

theorem segsOfPicks_length (step : ℕ) :
    ∀ pvs : List (ℕ × Variant), (segsOfPicks step pvs).length = (lensOf pvs).sum := by
  intro pvs
  induction pvs with
  | nil => rfl
  | cons pv rest ih =>
      simp only [segsOfPicks, List.flatMap_cons, List.length_append, stepSegsOf_length,
        lensOf, List.map_cons, List.sum_cons]
      simp only [segsOfPicks, lensOf] at ih
      omega

theorem lensOf_length (pvs : List (ℕ × Variant)) : (lensOf pvs).length = pvs.length := by
  simp [lensOf]

theorem specSources_get (step : ℕ) :
    ∀ (pvs : List (ℕ × Variant)) (idx i : ℕ) (pv : ℕ × Variant), pvs.get? i = some pv →
      (specSources step idx pvs).get? i =
        some (StreamSource.fromVariant pv.1 pv.2 (idx + ((lensOf pvs).take i).sum) step) := by
  intro pvs
  induction pvs with
  | nil => intro idx i pv h; cases h
  | cons hd rest ih =>
      intro idx i pv h
      cases i with
      | zero =>
          cases h
          simp [specSources]
      | succ i' =>
          simp only [List.get?] at h
          simp only [specSources, List.get?]
          rw [ih (idx + hd.2.segments.length) i' pv h]
          simp only [lensOf, List.map_cons, List.take_succ_cons, List.sum_cons]
          rw [Nat.add_assoc]

theorem discVal_mono (S L : ℕ) (ds : List ℕ) (hS : S = ds.sum) (hpos : 0 < ds.sum)
    (hL : L = ds.length) (e1 e2 : ℕ) (he : e1 ≤ e2) :
    (e1 / S) * L + cntBelow (e1 % S) 0 ds ≤ (e2 / S) * L + cntBelow (e2 % S) 0 ds := by
  subst hS hL
  have hne : ds ≠ [] := ne_nil_of_sum_pos ds hpos
  have hl : e1 / ds.sum ≤ e2 / ds.sum := Nat.div_le_div_right he
  rcases Nat.lt_or_ge (e1 / ds.sum) (e2 / ds.sum) with hlt | hge
  · have hi1 : cntBelow (e1 % ds.sum) 0 ds < ds.length :=
      cntBelow_lt_length _ ds 0 hne (by have := Nat.mod_lt e1 hpos; omega)
    have hbound : (e1 / ds.sum) * ds.length + cntBelow (e1 % ds.sum) 0 ds <
        (e1 / ds.sum + 1) * ds.length := by
      have : (e1 / ds.sum + 1) * ds.length = (e1 / ds.sum) * ds.length + ds.length := by ring
      omega
    have hstep : (e1 / ds.sum + 1) * ds.length ≤ (e2 / ds.sum) * ds.length :=
      Nat.mul_le_mul_right _ (by omega)
    omega
  · have hl2 : e1 / ds.sum = e2 / ds.sum := by omega
    have ho : e1 % ds.sum ≤ e2 % ds.sum := by
      have h1 := Nat.div_add_mod e1 ds.sum
      have h2 := Nat.div_add_mod e2 ds.sum
      have hq : ds.sum * (e1 / ds.sum) = ds.sum * (e2 / ds.sum) := by rw [hl2]
      omega
    have := cntBelow_mono ho ds 0
    have hq2 : (e1 / ds.sum) * ds.length = (e2 / ds.sum) * ds.length := by rw [hl2]
    omega

theorem mediaVal_mono (S Tot : ℕ) (ds lens : List ℕ) (K : ℕ → ℕ → ℕ)
    (hS : S = ds.sum) (hpos : 0 < ds.sum) (hlenlen : lens.length = ds.length)
    (hTot : Tot = lens.sum)
    (hK_mono : ∀ i a b, a ≤ b → K i a ≤ K i b)
    (hK_le : ∀ i off, K i off ≤ lens.getD i 0)
    (e1 e2 : ℕ) (he : e1 ≤ e2) :
    (e1 / S) * Tot + (lens.take (cntBelow (e1 % S) 0 ds)).sum +
        K (cntBelow (e1 % S) 0 ds) (e1 % S - (ds.take (cntBelow (e1 % S) 0 ds)).sum) ≤
      (e2 / S) * Tot + (lens.take (cntBelow (e2 % S) 0 ds)).sum +
        K (cntBelow (e2 % S) 0 ds) (e2 % S - (ds.take (cntBelow (e2 % S) 0 ds)).sum) := by
  subst hS hTot
  have hne : ds ≠ [] := ne_nil_of_sum_pos ds hpos
  have hl : e1 / ds.sum ≤ e2 / ds.sum := Nat.div_le_div_right he
  have hfirst : ∀ e : ℕ, cntBelow (e % ds.sum) 0 ds < ds.length := fun e =>
    cntBelow_lt_length _ ds 0 hne (by have := Nat.mod_lt e hpos; omega)
  have hblock : ∀ e : ℕ,
      (lens.take (cntBelow (e % ds.sum) 0 ds)).sum +
        K (cntBelow (e % ds.sum) 0 ds) (e % ds.sum - (ds.take (cntBelow (e % ds.sum) 0 ds)).sum) ≤
        (lens.take (cntBelow (e % ds.sum) 0 ds + 1)).sum := by
    intro e
    rw [take_sum_succ lens _ (by rw [hlenlen]; exact hfirst e)]
    have := hK_le (cntBelow (e % ds.sum) 0 ds)
      (e % ds.sum - (ds.take (cntBelow (e % ds.sum) 0 ds)).sum)
    omega
  rcases Nat.lt_or_ge (e1 / ds.sum) (e2 / ds.sum) with hlt | hge
  · have h1 := hblock e1
    have h2 : (lens.take (cntBelow (e1 % ds.sum) 0 ds + 1)).sum ≤ lens.sum :=
      sum_take_le lens _
    have hstep : (e1 / ds.sum + 1) * lens.sum ≤ (e2 / ds.sum) * lens.sum :=
      Nat.mul_le_mul_right _ (by omega)
    have hexp : (e1 / ds.sum + 1) * lens.sum = (e1 / ds.sum) * lens.sum + lens.sum := by ring
    omega
  · have hl2 : e1 / ds.sum = e2 / ds.sum := by omega
    have ho : e1 % ds.sum ≤ e2 % ds.sum := by
      have h1 := Nat.div_add_mod e1 ds.sum
      have h2 := Nat.div_add_mod e2 ds.sum
      have hq : ds.sum * (e1 / ds.sum) = ds.sum * (e2 / ds.sum) := by rw [hl2]
      omega
    have hi := cntBelow_mono ho ds 0
    rcases Nat.lt_or_ge (cntBelow (e1 % ds.sum) 0 ds) (cntBelow (e2 % ds.sum) 0 ds) with hilt | hige
    · have h1 := hblock e1
      have h2 : (lens.take (cntBelow (e1 % ds.sum) 0 ds + 1)).sum ≤
          (lens.take (cntBelow (e2 % ds.sum) 0 ds)).sum :=
        take_sum_mono lens (by omega)
      have hq2 : (e1 / ds.sum) * lens.sum = (e2 / ds.sum) * lens.sum := by rw [hl2]
      omega
    · have hieq : cntBelow (e1 % ds.sum) 0 ds = cntBelow (e2 % ds.sum) 0 ds := by omega
      rw [hieq, hl2]
      have hKm := hK_mono (cntBelow (e2 % ds.sum) 0 ds)
        (e1 % ds.sum - (ds.take (cntBelow (e2 % ds.sum) 0 ds)).sum)
        (e2 % ds.sum - (ds.take (cntBelow (e2 % ds.sum) 0 ds)).sum)
        (by omega)
      omega

theorem topDurs_pos (step j : ℕ) (packages : List Package) (hin : InputOk step j packages) :
    ∀ d ∈ topDurs step packages, 0 < d := by
  intro d hd
  unfold topDurs at hd
  obtain ⟨pkg, hpkg, hdp⟩ := List.mem_map.mp hd
  obtain ⟨hall, hone0, _, hne⟩ := hin pkg hpkg
  rw [← hdp]
  exact durationSteps_pos _ _ hne (hall _ (pickVar_mem 0 pkg hone0)).2

theorem topDurs_length (step : ℕ) (packages : List Package) :
    (topDurs step packages).length = packages.length := by
  simp [topDurs]

theorem picksOf_length (j : ℕ) (packages : List Package) :
    (picksOf j packages).length = packages.length := by
  simp [picksOf]

theorem specSources_length (step : ℕ) :
    ∀ (pvs : List (ℕ × Variant)) (idx : ℕ), (specSources step idx pvs).length = pvs.length := by
  intro pvs
  induction pvs with
  | nil => intro idx; rfl
  | cons pv rest ih => intro idx; simp only [specSources, List.length_cons, ih]

theorem take_pos_sum (l : List ℕ) (k : ℕ) (hk : k < l.length) (hpos : ∀ d ∈ l, 0 < d) :
    0 < (l.take (k + 1)).sum := by
  rcases l with _ | ⟨a, rest⟩
  · simp at hk
  · have := hpos a (List.mem_cons_self _ _)
    simp only [List.take_succ_cons, List.sum_cons]
    omega

theorem take_lt_length_of_sum_lt (l : List ℕ) (k : ℕ) (h : (l.take k).sum < l.sum) :
    k < l.length := by
  by_contra hk
  rw [List.take_of_length_le (by omega)] at h
  omega

theorem cntBelow_boundary :
    ∀ (ds : List ℕ) (r i : ℕ), (∀ d ∈ ds, 0 < d) → i < ds.length →
      cntBelow (r + (ds.take (i + 1)).sum) r ds = i := by
  intro ds
  induction ds with
  | nil => intro r i _ hi; simp at hi
  | cons d rest ih =>
      intro r i hpos hi
      cases i with
      | zero =>
          simp only [List.take_succ_cons, List.take_zero, List.sum_cons, List.sum_nil,
            Nat.add_zero, cntBelow]
          rw [if_neg (by omega)]
      | succ i' =>
          have hi' : i' < rest.length := by simpa using hi
          have hrestpos : ∀ d' ∈ rest, 0 < d' := fun d' hd' => hpos d' (List.mem_cons_of_mem _ hd')
          have hsumpos : 0 < (rest.take (i' + 1)).sum := take_pos_sum rest i' hi' hrestpos
          simp only [List.take_succ_cons, List.sum_cons, cntBelow]
          rw [if_pos (by omega)]
          have hih := ih (r + d) i' hrestpos hi'
          rw [show r + (d + (rest.take (i' + 1)).sum) = (r + d) + (rest.take (i' + 1)).sum by
            omega]
          omega

set_option maxRecDepth 8000 in
/-- C1 counterexample: on the two-package library (sources ending at 10 and
20 steps, duration 20), at `now = start + 10` the offset falls exactly on the
boundary between source 0 and source 1, yet `Playlist::at` selects source
index 0 (the finished source) with `offset_in_source = 10` (its full length),
not source 1 with offset 0 as the claim states. -/
theorem c1_boundary_counterexample :
    (Playlist.new 0 twoPkgs).map Playlist.sources = some [(10, 0, 0), (20, 10, 1)] ∧
      (Playlist.new 0 twoPkgs).map Playlist.duration = some 20 ∧
      (Playlist.new 0 twoPkgs).bind (fun pl => pl.atTime 1 10) =
        some { discontinuity := 0, loopIndex := 0, sourceIndex := 0, offsetInSource := 10 } ∧
      Playhead.sourceIndex
          { discontinuity := 0, loopIndex := 0, sourceIndex := 0, offsetInSource := 10 } ≠ 1 ∧
      Playhead.offsetInSource
          { discontinuity := 0, loopIndex := 0, sourceIndex := 0, offsetInSource := 10 } ≠ 0 := by
  have hsec : (Playlist.new 0 twoPkgs).bind (fun pl => pl.atSeconds 1 10) =
      some { discontinuity := 0, loopIndex := 0, sourceIndex := 0, offsetInSource := 10 } := by
    decide
  have hmaps : (Playlist.new 0 twoPkgs).map Playlist.start = some 0 := by decide
  refine ⟨by decide, by decide, ?_, by decide, by decide⟩
  cases hpl : Playlist.new 0 twoPkgs with
  | none => rw [hpl] at hmaps; cases hmaps
  | some pl =>
      rw [hpl] at hmaps hsec
      have hstart : pl.start = 0 := Option.some_inj.mp hmaps
      simp only [Option.some_bind] at hsec ⊢
      unfold Playlist.atTime
      rw [hstart, show (Int.floor ((10 : ℚ) - 0)).toNat = 10 by
        rw [show Int.floor ((10 : ℚ) - 0) = (10 : ℤ) by norm_num]; rfl]
      exact hsec

/-- C1 amended: when the computed offset falls exactly on the boundary between
source `i` and source `i+1` (offset equals the cumulative end of source `i`,
with `0 < offset < playlist.duration`), `Playlist::at` uses the first entry of
`playlist.sources` whose key is `≥ offset`; that entry's key equals the offset
and names the just-finished source `i`, so the playhead carries
`source_index = i` and `offset_in_source` equal to source `i`'s full duration
(not source `i+1` with offset 0). -/
theorem c1_amended_boundary (start : ℚ) (packages : List Package) (step : ℕ) (pl : Playlist)
    (hstep : StepSize.calculate (densOf packages) = some step)
    (hin : InputOk step 0 packages)
    (hnew : Playlist.new start packages = some pl)
    (speed : ℕ) (now : ℚ) (i : ℕ)
    (hoff : elapsedSteps pl.start pl.step speed now % pl.duration =
      ((topDurs step packages).take (i + 1)).sum)
    (hpos0 : 0 < pl.duration) :
    ∃ ph, pl.atTime speed now = some ph ∧ ph.sourceIndex = i ∧
      ph.offsetInSource = (topDurs step packages).getD i 0 := by
  obtain ⟨pl', s', hnew', hst, hstp, hdur, hsrcs, _, _, _⟩ :=
    new_closed start packages step 0 (by omega) hstep hin
  rw [hnew'] at hnew
  obtain rfl := Option.some_inj.mp hnew
  have hdpos : ∀ d ∈ topDurs step packages, 0 < d := topDurs_pos step 0 packages hin
  have hsum : 0 < (topDurs step packages).sum := by omega
  have hne : topDurs step packages ≠ [] := ne_nil_of_sum_pos _ hsum
  have hat := atTime_closed pl' (topDurs step packages) speed now hsrcs hdur hsum hne
  have hmod : elapsedSteps pl'.start pl'.step speed now % (topDurs step packages).sum <
      (topDurs step packages).sum := Nat.mod_lt _ hsum
  rw [hdur] at hoff
  have hilt : i + 1 ≤ (topDurs step packages).length := by
    have : ((topDurs step packages).take (i + 1)).sum < (topDurs step packages).sum := by
      omega
    exact le_of_lt (take_lt_length_of_sum_lt _ _ this)
  have hi : i < (topDurs step packages).length := by omega
  have hcnt : cntBelow (elapsedSteps pl'.start pl'.step speed now % (topDurs step packages).sum)
      0 (topDurs step packages) = i := by
    rw [hoff]
    have := cntBelow_boundary (topDurs step packages) 0 i hdpos hi
    simpa using this
  refine ⟨_, hat, ?_, ?_⟩
  · exact hcnt
  · show elapsedSteps pl'.start pl'.step speed now % (topDurs step packages).sum -
      (List.take (cntBelow (elapsedSteps pl'.start pl'.step speed now %
        (topDurs step packages).sum) 0 (topDurs step packages)) (topDurs step packages)).sum =
      (topDurs step packages).getD i 0
    rw [hcnt, hoff, take_sum_succ _ i hi]
    omega

set_option maxRecDepth 8000 in
/-- Witness for the amended C1 on the two-package library at `now = 10`. -/
theorem c1_amended_boundary_witness :
    ∃ pl ph, Playlist.new 0 twoPkgs = some pl ∧ pl.atTime 1 10 = some ph ∧
      ph.sourceIndex = 0 ∧ ph.offsetInSource = (topDurs 1 twoPkgs).getD 0 0 := by
  have hmapd : (Playlist.new 0 twoPkgs).map Playlist.duration = some 20 := by decide
  have hmaps : (Playlist.new 0 twoPkgs).map Playlist.start = some 0 := by decide
  have hmapp : (Playlist.new 0 twoPkgs).map Playlist.step = some 1 := by decide
  cases hpl : Playlist.new 0 twoPkgs with
  | none => rw [hpl] at hmapd; cases hmapd
  | some pl =>
      rw [hpl] at hmapd hmaps hmapp
      have hdur : pl.duration = 20 := Option.some_inj.mp hmapd
      have hstart : pl.start = 0 := Option.some_inj.mp hmaps
      have hstp : pl.step = 1 := Option.some_inj.mp hmapp
      obtain ⟨ph, h1, h2, h3⟩ := c1_amended_boundary 0 twoPkgs 1 pl (by decide) (by decide)
        hpl 1 10 0
        (by
          rw [hdur, hstart, hstp]
          unfold elapsedSteps
          rw [show (Int.floor ((10 : ℚ) - 0)).toNat = 10 by
            rw [show Int.floor ((10 : ℚ) - 0) = (10 : ℤ) by norm_num]; rfl]
          decide)
        (by omega)
      exact ⟨pl, ph, rfl, h1, h2, h3⟩

/-- C8: for every tick count `n` and denominator `d` dividing the step size,
`Duration::new(n, 1/d, step).to_seconds(step)` equals the rational `n / d`
exactly, and the conversion to step units (`n * (step / d)`) is exact integer
arithmetic (`n * (step / d) * d = n * step`). -/
theorem c8_duration_new_exact (n d step : ℕ) (hd : d ∣ step) (hs : 0 < step) :
    Duration.toSecondsQ (Duration.new n d step) step = (n : ℚ) / (d : ℚ) ∧
      Duration.new n d step * d = n * step := by
  obtain ⟨k, hk⟩ := hd
  have hdpos : 0 < d := by
    by_contra h0
    have hd0 : d = 0 := by omega
    rw [hd0] at hk
    simp at hk
    omega
  have hkpos : 0 < k := by
    by_contra h0
    have hk0 : k = 0 := by omega
    rw [hk0] at hk
    simp at hk
    omega
  have hdiv : step / d = k := by rw [hk]; exact Nat.mul_div_cancel_left k hdpos
  constructor
  · unfold Duration.toSecondsQ Duration.new
    rw [hdiv, hk]
    push_cast
    rw [div_eq_div_iff (by positivity) (by positivity)]
    ring
  · unfold Duration.new
    rw [hdiv, hk]
    ring

/-- Witness for C8 at `n = 7`, `d = 5`, `step = 10`. -/
theorem c8_duration_new_exact_witness :
    Duration.toSecondsQ (Duration.new 7 5 10) 10 = (7 : ℚ) / (5 : ℚ) ∧
      Duration.new 7 5 10 * 5 = 7 * 10 :=
  c8_duration_new_exact 7 5 10 (by decide) (by decide)

/-- C9: for every playlist `Playlist::new` builds whose top-video total (the
loop duration) is positive, the modulo divisor is nonzero, the greatest key in
the `sources` map equals `playlist.duration` while the looked-up offset is a
remainder strictly below it, so `Playlist::at` always finds an entry and the
unwrap on the sources lookup is unreachable: `at` is total. -/
theorem c9_at_total (start : ℚ) (packages : List Package) (pl : Playlist)
    (hnew : Playlist.new start packages = some pl) (hd : 0 < pl.duration) :
    (∃ e ∈ pl.sources, e.1 = pl.duration) ∧ (∀ e ∈ pl.sources, e.1 ≤ pl.duration) ∧
      ∀ (speed : ℕ) (now : ℚ), (pl.atTime speed now).isSome = true := by
  obtain ⟨h1, h2⟩ := new_inv start packages pl hnew
  have hmax : ∃ e ∈ pl.sources, e.1 = pl.duration := by
    rcases h2 with h0 | h
    · omega
    · exact h
  exact ⟨hmax, h1, fun speed now => atTime_isSome_of pl hd hmax speed now⟩

set_option maxRecDepth 8000 in
/-- Witness for C9 on the two-package library. -/
theorem c9_at_total_witness :
    ∃ pl, Playlist.new 0 twoPkgs = some pl ∧ 0 < pl.duration ∧
      ((∃ e ∈ pl.sources, e.1 = pl.duration) ∧ (∀ e ∈ pl.sources, e.1 ≤ pl.duration) ∧
        ∀ (speed : ℕ) (now : ℚ), (pl.atTime speed now).isSome = true) := by
  have hmap : (Playlist.new 0 twoPkgs).map Playlist.duration = some 20 := by decide
  cases hpl : Playlist.new 0 twoPkgs with
  | none => rw [hpl] at hmap; cases hmap
  | some pl =>
      rw [hpl] at hmap
      have hdur : pl.duration = 20 := Option.some_inj.mp hmap
      exact ⟨pl, rfl, by omega, c9_at_total 0 twoPkgs pl hpl (by omega)⟩

/-- C10: with an empty package list, or packages carrying no variants at all,
the timebase iterator is empty, so `StepSize::calculate`'s `reduce(..).unwrap()`
panics and `Playlist::new` (hence `Playlist::load`) cannot succeed: at least
one variant timebase is a precondition for construction. -/
theorem c10_empty_panics (start : ℚ) (packages : List Package)
    (h : packages.flatMap Package.variants = []) :
    StepSize.calculate (densOf packages) = none ∧ Playlist.new start packages = none := by
  have hdens : densOf packages = [] := by
    unfold densOf
    rw [List.flatMap_eq_nil_iff]
    intro p hp
    have : p.variants = [] := by
      have := List.flatMap_eq_nil_iff.mp h p hp
      exact this
    rw [this]
    rfl
  constructor
  · rw [hdens]; rfl
  · unfold Playlist.new
    rw [hdens]
    rfl

/-- Witness for C10 at the empty library. -/
theorem c10_empty_panics_witness :
    StepSize.calculate (densOf []) = none ∧ Playlist.new 0 [] = none :=
  c10_empty_panics 0 [] rfl

/-- C7: a timestamp strictly before `playlist.start` is clamped — the
truncated-and-saturated cast in `Playlist::at` sends it to elapsed 0, exactly
as at `now = playlist.start` — so `at` (and hence everything rendered from
the playhead) yields the same result as at the start, and the request does
not fail. -/
theorem c7_clamp_before_start (start : ℚ) (packages : List Package) (pl : Playlist)
    (hnew : Playlist.new start packages = some pl) (hd : 0 < pl.duration)
    (speed : ℕ) (now : ℚ) (hlt : now < pl.start) :
    pl.atTime speed now = pl.atTime speed pl.start ∧
      (pl.atTime speed now).isSome = true := by
  have h1 : (Int.floor (now - pl.start)).toNat = 0 := by
    have : Int.floor (now - pl.start) ≤ 0 := by
      rw [show (0 : ℤ) = Int.floor (0 : ℚ) by simp]
      exact Int.floor_le_floor (by linarith)
    omega
  have h2 : (Int.floor (pl.start - pl.start)).toNat = 0 := by
    rw [show pl.start - pl.start = (0 : ℚ) by ring]
    simp
  have heq : pl.atTime speed now = pl.atTime speed pl.start := by
    unfold Playlist.atTime
    rw [h1, h2]
  refine ⟨heq, ?_⟩
  obtain ⟨hinv1, hinv2⟩ := new_inv start packages pl hnew
  have hmax : ∃ e ∈ pl.sources, e.1 = pl.duration := by
    rcases hinv2 with h0 | h
    · omega
    · exact h
  exact atTime_isSome_of pl hd hmax speed now

set_option maxRecDepth 8000 in
/-- Witness for C7 on the two-package library, one second before start. -/
theorem c7_clamp_before_start_witness :
    ∃ pl, Playlist.new 0 twoPkgs = some pl ∧
      (pl.atTime 1 (-1) = pl.atTime 1 pl.start ∧ (pl.atTime 1 (-1)).isSome = true) := by
  have hmapd : (Playlist.new 0 twoPkgs).map Playlist.duration = some 20 := by decide
  have hmaps : (Playlist.new 0 twoPkgs).map Playlist.start = some 0 := by decide
  cases hpl : Playlist.new 0 twoPkgs with
  | none => rw [hpl] at hmapd; cases hmapd
  | some pl =>
      rw [hpl] at hmapd hmaps
      have hdur : pl.duration = 20 := Option.some_inj.mp hmapd
      have hstart : pl.start = 0 := Option.some_inj.mp hmaps
      exact ⟨pl, rfl, c7_clamp_before_start 0 twoPkgs pl hpl (by omega) 1 (-1)
        (by rw [hstart]; norm_num)⟩

set_option maxRecDepth 8000 in
/-- C5 counterexample: the one-package library `pkgHalf` has loop duration 3
steps at step size 2, i.e. 1.5 seconds.  Evaluating at `now = start` and at
`now + playlist.duration` (1.5 s later) leaves the playhead at loop 0 with
`offset_in_source = 2` — the loop index is not one greater, the offset does
not return to its old value, and the media sequence does not grow by the
stream's segment count (it stays 0 while the stream has 1 segment), because
the elapsed span is truncated to whole seconds. -/
theorem c5_loop_return_counterexample :
    (Playlist.new 0 [pkgHalf]).map (fun pl => (pl.duration, pl.step)) = some (3, 2) ∧
      (Playlist.new 0 [pkgHalf]).bind (fun pl => pl.atTime 1 0) =
        some { discontinuity := 0, loopIndex := 0, sourceIndex := 0, offsetInSource := 0 } ∧
      (Playlist.new 0 [pkgHalf]).bind (fun pl => pl.atTime 1 (0 + (3 : ℚ) / 2)) =
        some { discontinuity := 0, loopIndex := 0, sourceIndex := 0, offsetInSource := 2 } ∧
      (Playlist.new 0 [pkgHalf]).bind
          (fun pl => (pl.streams.get? 0).bind
            (fun s => (pl.atTime 1 (0 + (3 : ℚ) / 2)).bind (fun ph => s.mediaSeq ph))) =
        some 0 ∧
      (Playlist.new 0 [pkgHalf]).map (fun pl => pl.streams.map (fun s => s.segments.length)) =
        some [1, 0, 0, 0] ∧
      (0 : ℕ) ≠ 0 + 1 ∧ (2 : ℕ) ≠ 0 := by
  have hfl0 : (Int.floor ((0 : ℚ) - 0)).toNat = 0 := by
    rw [show Int.floor ((0 : ℚ) - 0) = (0 : ℤ) by norm_num]; rfl
  have hfl1 : (Int.floor ((0 : ℚ) + (3 : ℚ) / 2 - 0)).toNat = 1 := by
    rw [show Int.floor ((0 : ℚ) + (3 : ℚ) / 2 - 0) = (1 : ℤ) by norm_num]; rfl
  have hsec0 : (Playlist.new 0 [pkgHalf]).bind (fun pl => pl.atSeconds 1 0) =
      some { discontinuity := 0, loopIndex := 0, sourceIndex := 0, offsetInSource := 0 } := by
    decide
  have hsec1 : (Playlist.new 0 [pkgHalf]).bind (fun pl => pl.atSeconds 1 1) =
      some { discontinuity := 0, loopIndex := 0, sourceIndex := 0, offsetInSource := 2 } := by
    decide
  have hm1 : (Playlist.new 0 [pkgHalf]).bind
      (fun pl => (pl.streams.get? 0).bind
        (fun s => (pl.atSeconds 1 1).bind (fun ph => s.mediaSeq ph))) = some 0 := by decide
  have hmaps : (Playlist.new 0 [pkgHalf]).map Playlist.start = some 0 := by decide
  refine ⟨by decide, ?_, ?_, ?_, by decide, by decide, by decide⟩ <;>
  · cases hpl : Playlist.new 0 [pkgHalf] with
    | none => rw [hpl] at hmaps; cases hmaps
    | some pl =>
        rw [hpl] at hmaps hsec0 hsec1 hm1
        have hstart : pl.start = 0 := Option.some_inj.mp hmaps
        simp only [Option.some_bind] at hsec0 hsec1 hm1 ⊢
        unfold Playlist.atTime
        rw [hstart]
        first
        | (rw [hfl0]; exact hsec0)
        | (rw [hfl1]; first | exact hsec1 | exact hm1)

/-- C5 amended: after one full `playlist.duration`, the playhead returns to
an equivalent source and offset with the loop index one greater, the media
sequence exactly `|stream.segments|` larger and the discontinuity sequence
exactly `|sources|` larger — provided the playlist duration is a whole number
of seconds (`step ∣ duration`; otherwise the truncation to whole seconds
breaks the return, as the counterexample shows) and the configured speed is
the default 1. -/
theorem c5_amended_loop_return (start : ℚ) (packages : List Package) (step j : ℕ)
    (pl : Playlist) (s : Stream) (hj : j < 4)
    (hstep : StepSize.calculate (densOf packages) = some step)
    (hin : InputOk step j packages) (hpk : packages ≠ [])
    (hnew : Playlist.new start packages = some pl)
    (hs : pl.streams.get? j = some s)
    (hwhole : pl.step ∣ pl.duration) (hsp : 0 < pl.step)
    (now : ℚ) (hnow : pl.start ≤ now) :
    ∃ ph1 ph2 m1, pl.atTime 1 now = some ph1 ∧
      pl.atTime 1 (now + (pl.duration : ℚ) / (pl.step : ℚ)) = some ph2 ∧
      ph2.sourceIndex = ph1.sourceIndex ∧ ph2.offsetInSource = ph1.offsetInSource ∧
      ph2.loopIndex = ph1.loopIndex + 1 ∧
      ph2.discontinuity = ph1.discontinuity + pl.sources.length ∧
      s.mediaSeq ph1 = some m1 ∧ s.mediaSeq ph2 = some (m1 + s.segments.length) := by
  obtain ⟨pl', s', hnew', hst, hstp, hdur, hsrcs, hsget, hssrc, hsseg⟩ :=
    new_closed start packages step j hj hstep hin
  rw [hnew'] at hnew
  obtain rfl := Option.some_inj.mp hnew
  rw [hsget] at hs
  obtain rfl := Option.some_inj.mp hs
  have hdpos : ∀ d ∈ topDurs step packages, 0 < d := topDurs_pos step j packages hin
  have hdne : topDurs step packages ≠ [] := by
    unfold topDurs
    simpa using hpk
  have hsum : 0 < (topDurs step packages).sum := List.sum_pos _ hdpos hdne
  have hcast : (pl'.duration : ℚ) / (pl'.step : ℚ) = ((pl'.duration / pl'.step : ℕ) : ℚ) :=
    (Nat.cast_div hwhole (by positivity)).symm
  have hkstep : (pl'.duration / pl'.step) * pl'.step = pl'.duration := Nat.div_mul_cancel hwhole
  have he2 : elapsedSteps pl'.start pl'.step 1 (now + (pl'.duration : ℚ) / (pl'.step : ℚ)) =
      elapsedSteps pl'.start pl'.step 1 now + pl'.duration := by
    rw [hcast, elapsedSteps_add_whole pl'.start pl'.step now _ hnow, hkstep]
  have hat1 := atTime_closed pl' (topDurs step packages) 1 now hsrcs hdur hsum hdne
  have hat2 := atTime_closed pl' (topDurs step packages) 1
    (now + (pl'.duration : ℚ) / (pl'.step : ℚ)) hsrcs hdur hsum hdne
  have hE : elapsedSteps pl'.start pl'.step 1 (now + (pl'.duration : ℚ) / (pl'.step : ℚ)) =
      elapsedSteps pl'.start pl'.step 1 now + (topDurs step packages).sum := by
    rw [he2, hdur]
  rw [hE] at hat2
  have hloop : (elapsedSteps pl'.start pl'.step 1 now + (topDurs step packages).sum) /
      (topDurs step packages).sum = elapsedSteps pl'.start pl'.step 1 now /
      (topDurs step packages).sum + 1 := Nat.add_div_right _ hsum
  have hmod : (elapsedSteps pl'.start pl'.step 1 now + (topDurs step packages).sum) %
      (topDurs step packages).sum = elapsedSteps pl'.start pl'.step 1 now %
      (topDurs step packages).sum := Nat.add_mod_right _ _
  rw [hloop, hmod] at hat2
  have hcnt_lt : cntBelow (elapsedSteps pl'.start pl'.step 1 now %
      (topDurs step packages).sum) 0 (topDurs step packages) < (topDurs step packages).length :=
    cntBelow_lt_length _ _ 0 hdne (by
      have := Nat.mod_lt (elapsedSteps pl'.start pl'.step 1 now) hsum
      omega)
  have hpicks_len : (picksOf j packages).length = (topDurs step packages).length := by
    rw [picksOf_length, topDurs_length]
  have hsrc_len : s'.sources.length = (picksOf j packages).length := by
    rw [hssrc, specSources_length]
  obtain ⟨src, hsrc⟩ : ∃ src, s'.sources.get? (cntBelow (elapsedSteps pl'.start pl'.step 1 now %
      (topDurs step packages).sum) 0 (topDurs step packages)) = some src := by
    have hlt : cntBelow (elapsedSteps pl'.start pl'.step 1 now %
        (topDurs step packages).sum) 0 (topDurs step packages) < s'.sources.length := by
      omega
    exact ⟨s'.sources.get ⟨_, hlt⟩, List.get?_eq_get hlt⟩
  refine ⟨_, _,
    elapsedSteps pl'.start pl'.step 1 now / (topDurs step packages).sum * s'.segments.length +
      src.segFrom +
      startSegIdx src
        (elapsedSteps pl'.start pl'.step 1 now % (topDurs step packages).sum -
          (List.take (cntBelow (elapsedSteps pl'.start pl'.step 1 now %
            (topDurs step packages).sum) 0 (topDurs step packages))
            (topDurs step packages)).sum),
    hat1, hat2, rfl, rfl, rfl, ?_, ?_, ?_⟩
  · show (elapsedSteps pl'.start pl'.step 1 now / (topDurs step packages).sum + 1) *
        (topDurs step packages).length +
        cntBelow (elapsedSteps pl'.start pl'.step 1 now % (topDurs step packages).sum) 0
          (topDurs step packages) =
      elapsedSteps pl'.start pl'.step 1 now / (topDurs step packages).sum *
        (topDurs step packages).length +
        cntBelow (elapsedSteps pl'.start pl'.step 1 now % (topDurs step packages).sum) 0
          (topDurs step packages) + pl'.sources.length
    rw [hsrcs, boundaryList_length]
    ring
  · simp only [Stream.mediaSeq, hsrc, Option.map_some']
  · simp only [Stream.mediaSeq, hsrc, Option.map_some']
    congr 1
    ring

set_option maxRecDepth 8000 in
/-- Witness for the amended C5 on the two-package library at `now = 5`. -/
theorem c5_amended_loop_return_witness :
    ∃ pl s ph1 ph2 m1, Playlist.new 0 twoPkgs = some pl ∧ pl.streams.get? 0 = some s ∧
      pl.atTime 1 5 = some ph1 ∧
      pl.atTime 1 (5 + (pl.duration : ℚ) / (pl.step : ℚ)) = some ph2 ∧
      ph2.sourceIndex = ph1.sourceIndex ∧ ph2.offsetInSource = ph1.offsetInSource ∧
      ph2.loopIndex = ph1.loopIndex + 1 ∧
      ph2.discontinuity = ph1.discontinuity + pl.sources.length ∧
      s.mediaSeq ph1 = some m1 ∧ s.mediaSeq ph2 = some (m1 + s.segments.length) := by
  have hmapd : (Playlist.new 0 twoPkgs).map Playlist.duration = some 20 := by decide
  have hmaps : (Playlist.new 0 twoPkgs).map Playlist.start = some 0 := by decide
  have hmapp : (Playlist.new 0 twoPkgs).map Playlist.step = some 1 := by decide
  have hmapg : (Playlist.new 0 twoPkgs).map (fun pl => (pl.streams.get? 0).isSome) =
      some true := by decide
  cases hpl : Playlist.new 0 twoPkgs with
  | none => rw [hpl] at hmapd; cases hmapd
  | some pl =>
      rw [hpl] at hmapd hmaps hmapp hmapg
      have hdur : pl.duration = 20 := Option.some_inj.mp hmapd
      have hstart : pl.start = 0 := Option.some_inj.mp hmaps
      have hstp : pl.step = 1 := Option.some_inj.mp hmapp
      have hg : (pl.streams.get? 0).isSome = true := by
        have := Option.some_inj.mp hmapg
        simpa using this
      cases hget : pl.streams.get? 0 with
      | none => rw [hget] at hg; cases hg
      | some s =>
          obtain ⟨ph1, ph2, m1, h1, h2, h3, h4, h5, h6, h7, h8⟩ :=
            c5_amended_loop_return 0 twoPkgs 1 0 pl s (by omega) (by decide) (by decide)
              (by decide) hpl hget (by rw [hstp, hdur]; decide) (by omega) 5
              (by rw [hstart]; norm_num)
          exact ⟨pl, s, ph1, ph2, m1, rfl, hget, h1, h2, h3, h4, h5, h6, h7, h8⟩

theorem mediaSeq_closed (step j : ℕ) (packages : List Package) (s' : Stream)
    (hin : InputOk step j packages)
    (hssrc : s'.sources = specSources step 0 (picksOf j packages))
    (ph : Playhead) (hlt : ph.sourceIndex < (picksOf j packages).length) :
    s'.mediaSeq ph = some (ph.loopIndex * s'.segments.length +
      ((lensOf (picksOf j packages)).take ph.sourceIndex).sum +
      cntBelow ph.offsetInSource 0
        (stepDurs step
          ((picksOf j packages).getD ph.sourceIndex (0, dummyVariant)).2.timeBaseDen
          ((picksOf j packages).getD ph.sourceIndex (0, dummyVariant)).2.segments)) := by
  have hpv : (picksOf j packages).get? ph.sourceIndex =
      some ((picksOf j packages).get ⟨ph.sourceIndex, hlt⟩) := List.get?_eq_get hlt
  set pv := (picksOf j packages).get ⟨ph.sourceIndex, hlt⟩ with hpvdef
  have hgd : (picksOf j packages).getD ph.sourceIndex (0, dummyVariant) = pv := by
    rw [List.getD_eq_get?, hpv]
    rfl
  obtain ⟨pkg, hpkg, hpkgpv⟩ : ∃ pkg, packages.get? ph.sourceIndex = some pkg ∧
      pv = (pkg.vid, pickVar j pkg) := by
    have := hpv
    unfold picksOf at this
    rw [List.get?_map] at this
    rcases Option.map_eq_some'.mp this with ⟨pkg, hp1, hp2⟩
    exact ⟨pkg, hp1, hp2.symm⟩
  have hpkgmem : pkg ∈ packages := List.get?_mem hpkg
  obtain ⟨hall, _, honej, _⟩ := hin pkg hpkgmem
  have hpickmem : pickVar j pkg ∈ pkg.variants := pickVar_mem j pkg honej
  have hpos : ∀ seg ∈ pv.2.segments,
      0 < Duration.new seg.duration pv.2.timeBaseDen step := by
    rw [hpkgpv]
    exact (hall _ hpickmem).2
  have hsrcget : s'.sources.get? ph.sourceIndex =
      some (StreamSource.fromVariant pv.1 pv.2
        (0 + ((lensOf (picksOf j packages)).take ph.sourceIndex).sum) step) := by
    rw [hssrc]
    exact specSources_get step (picksOf j packages) 0 ph.sourceIndex pv hpv
  have hlk := fromVariant_lookup pv.1 (0 + ((lensOf (picksOf j packages)).take ph.sourceIndex).sum)
    step pv.2 hpos
  have hstart : startSegIdx (StreamSource.fromVariant pv.1 pv.2
      (0 + ((lensOf (picksOf j packages)).take ph.sourceIndex).sum) step) ph.offsetInSource =
      cntBelow ph.offsetInSource 0 (stepDurs step pv.2.timeBaseDen pv.2.segments) :=
    startSegIdx_eq _ _ _ hlk
  simp only [Stream.mediaSeq, hsrcget, Option.map_some', hstart, hgd]
  simp [StreamSource.fromVariant]

/-- C3: for every loaded playlist (spec §3 data-model invariants assumed on
the input packages), every stream and all timestamps `now1 ≤ now2` at or
after `playlist.start`, the rendered `EXT-X-MEDIA-SEQUENCE` value
(`Stream::media_seq` of the playhead) and the playhead's discontinuity field
(the rendered `EXT-X-DISCONTINUITY-SEQUENCE`) are monotonically
non-decreasing in `now`. -/
theorem c3_monotone_sequences (start : ℚ) (packages : List Package) (step j : ℕ)
    (pl : Playlist) (s : Stream) (hj : j < 4)
    (hstep : StepSize.calculate (densOf packages) = some step)
    (hin : InputOk step j packages) (hpk : packages ≠ [])
    (hnew : Playlist.new start packages = some pl)
    (hs : pl.streams.get? j = some s)
    (speed : ℕ) (now1 now2 : ℚ) (h1 : pl.start ≤ now1) (h12 : now1 ≤ now2) :
    ∃ ph1 ph2 m1 m2,
      pl.atTime speed now1 = some ph1 ∧ pl.atTime speed now2 = some ph2 ∧
      s.mediaSeq ph1 = some m1 ∧ s.mediaSeq ph2 = some m2 ∧
      m1 ≤ m2 ∧ ph1.discontinuity ≤ ph2.discontinuity := by
  obtain ⟨pl', s', hnew', hst, hstp, hdur, hsrcs, hsget, hssrc, hsseg⟩ :=
    new_closed start packages step j hj hstep hin
  rw [hnew'] at hnew
  obtain rfl := Option.some_inj.mp hnew
  rw [hsget] at hs
  obtain rfl := Option.some_inj.mp hs
  have hdpos : ∀ d ∈ topDurs step packages, 0 < d := topDurs_pos step j packages hin
  have hdne : topDurs step packages ≠ [] := by
    unfold topDurs
    simpa using hpk
  have hsum : 0 < (topDurs step packages).sum := List.sum_pos _ hdpos hdne
  have hat1 := atTime_closed pl' (topDurs step packages) speed now1 hsrcs hdur hsum hdne
  have hat2 := atTime_closed pl' (topDurs step packages) speed now2 hsrcs hdur hsum hdne
  have he12 : elapsedSteps pl'.start pl'.step speed now1 ≤
      elapsedSteps pl'.start pl'.step speed now2 := elapsedSteps_mono _ _ _ h12
  have hlenlen : (lensOf (picksOf j packages)).length = (topDurs step packages).length := by
    rw [lensOf_length, picksOf_length, topDurs_length]
  have hTot : s'.segments.length = (lensOf (picksOf j packages)).sum := by
    rw [hsseg, segsOfPicks_length]
  have hK_le : ∀ i off,
      cntBelow off 0 (stepDurs step
        ((picksOf j packages).getD i (0, dummyVariant)).2.timeBaseDen
        ((picksOf j packages).getD i (0, dummyVariant)).2.segments) ≤
      (lensOf (picksOf j packages)).getD i 0 := by
    intro i off
    by_cases hi : i < (picksOf j packages).length
    · have hg : (picksOf j packages).get? i = some ((picksOf j packages).get ⟨i, hi⟩) :=
        List.get?_eq_get hi
      have hgd : (picksOf j packages).getD i (0, dummyVariant) =
          (picksOf j packages).get ⟨i, hi⟩ := by
        rw [List.getD_eq_get?, hg]; rfl
      have hld : (lensOf (picksOf j packages)).getD i 0 =
          ((picksOf j packages).get ⟨i, hi⟩).2.segments.length := by
        rw [List.getD_eq_get?]
        unfold lensOf
        rw [List.get?_map, hg]
        rfl
      rw [hgd, hld]
      have := cntBelow_le_length off (stepDurs step
        ((picksOf j packages).get ⟨i, hi⟩).2.timeBaseDen
        ((picksOf j packages).get ⟨i, hi⟩).2.segments) 0
      simpa [stepDurs] using this
    · have hpick : (picksOf j packages).getD i (0, dummyVariant) = (0, dummyVariant) :=
        List.getD_eq_default _ _ (by omega)
      have hlen0 : (lensOf (picksOf j packages)).getD i 0 = 0 :=
        List.getD_eq_default _ _ (by rw [lensOf_length]; omega)
      rw [hpick, hlen0]
      simp [stepDurs, dummyVariant, cntBelow]
  have hmedia := mediaVal_mono (topDurs step packages).sum s'.segments.length
    (topDurs step packages) (lensOf (picksOf j packages))
    (fun i off => cntBelow off 0 (stepDurs step
      ((picksOf j packages).getD i (0, dummyVariant)).2.timeBaseDen
      ((picksOf j packages).getD i (0, dummyVariant)).2.segments))
    rfl hsum hlenlen hTot
    (fun i a b hab => cntBelow_mono hab _ 0) hK_le
    (elapsedSteps pl'.start pl'.step speed now1) (elapsedSteps pl'.start pl'.step speed now2)
    he12
  have hdisc := discVal_mono (topDurs step packages).sum (topDurs step packages).length
    (topDurs step packages) rfl hsum rfl
    (elapsedSteps pl'.start pl'.step speed now1) (elapsedSteps pl'.start pl'.step speed now2)
    he12
  have hpicks_len : (picksOf j packages).length = (topDurs step packages).length := by
    rw [picksOf_length, topDurs_length]
  have hcnt1 : cntBelow (elapsedSteps pl'.start pl'.step speed now1 %
      (topDurs step packages).sum) 0 (topDurs step packages) < (picksOf j packages).length := by
    rw [hpicks_len]
    exact cntBelow_lt_length _ _ 0 hdne
      (by have := Nat.mod_lt (elapsedSteps pl'.start pl'.step speed now1) hsum; omega)
  have hcnt2 : cntBelow (elapsedSteps pl'.start pl'.step speed now2 %
      (topDurs step packages).sum) 0 (topDurs step packages) < (picksOf j packages).length := by
    rw [hpicks_len]
    exact cntBelow_lt_length _ _ 0 hdne
      (by have := Nat.mod_lt (elapsedSteps pl'.start pl'.step speed now2) hsum; omega)
  have hm1 := mediaSeq_closed step j packages s' hin hssrc
    { discontinuity := elapsedSteps pl'.start pl'.step speed now1 / (topDurs step packages).sum *
        (topDurs step packages).length +
        cntBelow (elapsedSteps pl'.start pl'.step speed now1 % (topDurs step packages).sum) 0
          (topDurs step packages)
      loopIndex := elapsedSteps pl'.start pl'.step speed now1 / (topDurs step packages).sum
      sourceIndex := cntBelow (elapsedSteps pl'.start pl'.step speed now1 %
        (topDurs step packages).sum) 0 (topDurs step packages)
      offsetInSource := elapsedSteps pl'.start pl'.step speed now1 % (topDurs step packages).sum -
        (List.take (cntBelow (elapsedSteps pl'.start pl'.step speed now1 %
          (topDurs step packages).sum) 0 (topDurs step packages)) (topDurs step packages)).sum }
    hcnt1
  have hm2 := mediaSeq_closed step j packages s' hin hssrc
    { discontinuity := elapsedSteps pl'.start pl'.step speed now2 / (topDurs step packages).sum *
        (topDurs step packages).length +
        cntBelow (elapsedSteps pl'.start pl'.step speed now2 % (topDurs step packages).sum) 0
          (topDurs step packages)
      loopIndex := elapsedSteps pl'.start pl'.step speed now2 / (topDurs step packages).sum
      sourceIndex := cntBelow (elapsedSteps pl'.start pl'.step speed now2 %
        (topDurs step packages).sum) 0 (topDurs step packages)
      offsetInSource := elapsedSteps pl'.start pl'.step speed now2 % (topDurs step packages).sum -
        (List.take (cntBelow (elapsedSteps pl'.start pl'.step speed now2 %
          (topDurs step packages).sum) 0 (topDurs step packages)) (topDurs step packages)).sum }
    hcnt2
  refine ⟨_, _, _, _, hat1, hat2, hm1, hm2, ?_, ?_⟩
  · simpa using hmedia
  · simpa using hdisc

set_option maxRecDepth 8000 in
/-- Witness for C3 on the two-package library at `now1 = 3`, `now2 = 27`. -/
theorem c3_monotone_sequences_witness :
    ∃ pl s ph1 ph2 m1 m2, Playlist.new 0 twoPkgs = some pl ∧ pl.streams.get? 0 = some s ∧
      pl.atTime 1 3 = some ph1 ∧ pl.atTime 1 27 = some ph2 ∧
      s.mediaSeq ph1 = some m1 ∧ s.mediaSeq ph2 = some m2 ∧
      m1 ≤ m2 ∧ ph1.discontinuity ≤ ph2.discontinuity := by
  have hmaps : (Playlist.new 0 twoPkgs).map Playlist.start = some 0 := by decide
  have hmapg : (Playlist.new 0 twoPkgs).map (fun pl => (pl.streams.get? 0).isSome) =
      some true := by decide
  cases hpl : Playlist.new 0 twoPkgs with
  | none => rw [hpl] at hmaps; cases hmaps
  | some pl =>
      rw [hpl] at hmaps hmapg
      have hstart : pl.start = 0 := Option.some_inj.mp hmaps
      have hg : (pl.streams.get? 0).isSome = true := by
        have := Option.some_inj.mp hmapg
        simpa using this
      cases hget : pl.streams.get? 0 with
      | none => rw [hget] at hg; cases hg
      | some s =>
          obtain ⟨ph1, ph2, m1, m2, h1, h2, h3, h4, h5, h6⟩ :=
            c3_monotone_sequences 0 twoPkgs 1 0 pl s (by omega) (by decide) (by decide)
              (by decide) hpl hget 1 3 27 (by rw [hstart]; norm_num) (by norm_num)
          exact ⟨pl, s, ph1, ph2, m1, m2, rfl, hget, h1, h2, h3, h4, h5, h6⟩

set_option maxRecDepth 8000 in
/-- C2 counterexample: the two-package library carries only 1920×1080 video
variants — every package lacks the 960×540 variant — yet `Playlist::new`
completes successfully (no startup failure); the 540p stream is simply left
without any source, deferring the problem to request time. -/
theorem c2_missing_variant_counterexample :
    twoPkgs.map (fun p => p.variants.map (fun v => v.kind)) =
      [[VariantKind.video 1920 1080], [VariantKind.video 1920 1080]] ∧
      (Playlist.new 0 twoPkgs).isSome = true ∧
      (Playlist.new 0 twoPkgs).map (fun pl => pl.streams.map (fun s => s.sources.length)) =
        some [2, 0, 0, 0] := by
  decide

/-- C2 amended: `Playlist::new` performs no per-package variant-set check; it
fails at startup only when the timebase reduction is empty, a variant matches
no stream, or a segment has zero step duration.  Whenever every variant of
every package matches some stream and has positive step durations, assembly
succeeds — in particular a package lacking the 960×540 variant loads without
error (the 540p stream is left without a source for it), so the failure the
claim expects at startup is deferred to request time. -/
theorem c2_amended_no_missing_variant_check (start : ℚ) (packages : List Package) (step : ℕ)
    (hstep : StepSize.calculate (densOf packages) = some step)
    (hok : ∀ pkg ∈ packages, ∀ v ∈ pkg.variants, VariantOkP step v) :
    (Playlist.new start packages).isSome = true := by
  obtain ⟨st', hgo, _, _, _, _⟩ := goPackages_eq step packages
    { streams := initStreams, sources := [], running := 0, items := [] } 0 rfl hok
  simp only [Playlist.new, hstep, hgo]
  rfl

set_option maxRecDepth 8000 in
/-- Witness for the amended C2 on the 540p-less two-package library. -/
theorem c2_amended_no_missing_variant_check_witness :
    (Playlist.new 0 twoPkgs).isSome = true :=
  c2_amended_no_missing_variant_check 0 twoPkgs 1 (by decide) (by decide)

set_option maxRecDepth 8000 in
/-- C4 counterexample: the library `[mmPkg]` (1080p total 10 steps, 720p total
7 steps) assembles successfully — no assertion rejects it — and the resulting
720p stream's total segment duration (7) differs from `playlist.duration`
(10); the only assertion during assembly is the per-segment nonzero check. -/
theorem c4_stream_duration_counterexample :
    (Playlist.new 0 [mmPkg]).isSome = true ∧
      (Playlist.new 0 [mmPkg]).map (fun pl => pl.streams.map streamTotal) =
        some [10, 7, 0, 0] ∧
      (Playlist.new 0 [mmPkg]).map Playlist.duration = some 10 ∧ (7 : ℕ) ≠ 10 := by
  decide

theorem segsOfPicks_total (step : ℕ) :
    ∀ pvs : List (ℕ × Variant),
      ((segsOfPicks step pvs).map (fun sg => sg.duration)).sum =
        (pvs.map (fun pv => pv.2.durationSteps step)).sum := by
  intro pvs
  induction pvs with
  | nil => rfl
  | cons pv rest ih =>
      simp only [segsOfPicks, List.flatMap_cons, List.map_append, List.sum_append,
        List.map_cons, List.sum_cons]
      simp only [segsOfPicks] at ih
      rw [ih]
      congr 1
      simp only [stepSegsOf, List.map_map, Variant.durationSteps]
      rfl

/-- C4 amended: during assembly the only assertion is `StreamSegment::new`'s
nonzero-step-duration check; nothing compares a stream's total duration with
the canonical loop length, and a non-top stream's total may silently differ
(see the counterexample).  What does hold by construction is that the
top-video (1920×1080) stream's total segment duration equals
`playlist.duration`, the canonical loop length defined by the top-video
walk. -/
theorem c4_amended_top_stream_total (start : ℚ) (packages : List Package) (step : ℕ)
    (pl : Playlist) (s : Stream)
    (hstep : StepSize.calculate (densOf packages) = some step)
    (hin : InputOk step 0 packages)
    (hnew : Playlist.new start packages = some pl)
    (hs : pl.streams.get? 0 = some s) :
    streamTotal s = pl.duration := by
  obtain ⟨pl', s', hnew', hst, hstp, hdur, hsrcs, hsget, hssrc, hsseg⟩ :=
    new_closed start packages step 0 (by omega) hstep hin
  rw [hnew'] at hnew
  obtain rfl := Option.some_inj.mp hnew
  rw [hsget] at hs
  obtain rfl := Option.some_inj.mp hs
  unfold streamTotal
  rw [hsseg, hdur, segsOfPicks_total]
  unfold picksOf topDurs
  rw [List.map_map]
  rfl

set_option maxRecDepth 8000 in
/-- Witness for the amended C4 on `[mmPkg]`: the top stream total equals the
loop duration even while the 720p stream total differs. -/
theorem c4_amended_top_stream_total_witness :
    ∃ pl s, Playlist.new 0 [mmPkg] = some pl ∧ pl.streams.get? 0 = some s ∧
      streamTotal s = pl.duration := by
  have hmapg : (Playlist.new 0 [mmPkg]).map (fun pl => (pl.streams.get? 0).isSome) =
      some true := by decide
  cases hpl : Playlist.new 0 [mmPkg] with
  | none => rw [hpl] at hmapg; cases hmapg
  | some pl =>
      rw [hpl] at hmapg
      have hg : (pl.streams.get? 0).isSome = true := by
        have := Option.some_inj.mp hmapg
        simpa using this
      cases hget : pl.streams.get? 0 with
      | none => rw [hget] at hg; cases hg
      | some s =>
          exact ⟨pl, s, rfl, hget,
            c4_amended_top_stream_total 0 [mmPkg] 1 pl s (by decide) (by decide) hpl hget⟩

theorem head?_take_succ {α : Type} (l : List α) (n : ℕ) : (l.take (n + 1)).head? = l.head? := by
  cases l <;> rfl

theorem head?_append_left {α : Type} (l1 l2 : List α) (h : l1 ≠ []) :
    (l1 ++ l2).head? = l1.head? := by
  cases l1
  · exact absurd rfl h
  · rfl

theorem chain_le_replicate (c x : ℕ) (h : c ≤ x) :
    ∀ n, List.Chain (· ≤ ·) c (List.replicate n x) := by
  intro n
  induction n generalizing c with
  | zero => exact List.Chain.nil
  | succ n ih => exact List.Chain.cons h (ih x (le_refl x))

theorem chain_le_take (c : ℕ) :
    ∀ (l : List ℕ) (n : ℕ), List.Chain (· ≤ ·) c l → List.Chain (· ≤ ·) c (l.take n) := by
  intro l
  induction l generalizing c with
  | nil => intro n _; simp [List.Chain.nil]
  | cons a rest ih =>
      intro n h
      obtain ⟨hca, hrest⟩ := List.chain_cons.mp h
      cases n with
      | zero => exact List.Chain.nil
      | succ n' =>
          simp only [List.take_succ_cons]
          exact List.Chain.cons hca (ih a n' hrest)

theorem chain_le_append (c : ℕ) :
    ∀ (l1 l2 : List ℕ), List.Chain (· ≤ ·) c l1 →
      List.Chain (· ≤ ·) (l1.getLastD c) l2 → List.Chain (· ≤ ·) c (l1 ++ l2) := by
  intro l1
  induction l1 generalizing c with
  | nil => intro l2 _ h2; simpa using h2
  | cons a rest ih =>
      intro l2 h1 h2
      obtain ⟨hca, hrest⟩ := List.chain_cons.mp h1
      rw [List.getLastD_cons] at h2
      exact List.Chain.cons hca (ih a l2 hrest h2)

theorem chain_le_getLastD (c : ℕ) :
    ∀ l : List ℕ, List.Chain (· ≤ ·) c l → c ≤ l.getLastD c := by
  intro l
  induction l generalizing c with
  | nil => intro _; exact le_refl c
  | cons a rest ih =>
      intro h
      obtain ⟨hca, hrest⟩ := List.chain_cons.mp h
      rw [List.getLastD_cons]
      exact le_trans hca (ih a hrest)

theorem discTagCount_chain (c : ℕ) :
    ∀ l : List ℕ, List.Chain (· ≤ ·) c l → discTagCount c l = l.getLastD c - c := by
  intro l
  induction l generalizing c with
  | nil => intro _; simp [discTagCount]
  | cons d rest ih =>
      intro h
      obtain ⟨hcd, hrest⟩ := List.chain_cons.mp h
      have hlast := chain_le_getLastD d rest hrest
      simp only [discTagCount, List.getLastD_cons]
      rw [ih d hrest]
      omega

theorem getLastD_replicate (c x : ℕ) :
    ∀ n, (List.replicate (n + 1) x).getLastD c = x := by
  intro n
  induction n generalizing c with
  | zero => rfl
  | succ n ih =>
      rw [List.replicate_succ, List.getLastD_cons]
      exact ih x

theorem getLastD_replicate_self (c : ℕ) : ∀ n, (List.replicate n c).getLastD c = c := by
  intro n
  cases n with
  | zero => rfl
  | succ n => exact getLastD_replicate c c n

theorem chain_discShape (d : ℕ) :
    ∀ lens : List ℕ, List.Chain (· ≤ ·) d (discShape d lens) := by
  intro lens
  induction lens generalizing d with
  | nil => exact List.Chain.nil
  | cons len rest ih =>
      simp only [discShape]
      apply chain_le_append d
      · exact chain_le_replicate d (d + 1) (by omega) len
      · cases len with
        | zero =>
            simp only [List.replicate_zero, List.getLastD_nil]
            have := ih (d + 1)
            rcases hds : discShape (d + 1) rest with _ | ⟨x, xs⟩
            · exact List.Chain.nil
            · rw [hds] at this
              obtain ⟨hx, hxs⟩ := List.chain_cons.mp this
              exact List.Chain.cons (by omega) hxs
        | succ len' =>
            rw [getLastD_replicate d (d + 1) len']
            exact ih (d + 1)

theorem map_const_disc (disc : ℕ) (src : StreamSource) (l : List StreamSegment) :
    (l.map (fun seg => ({ discontinuity := disc, source := src, segment := seg } : QueueItem))).map
      (fun it => it.discontinuity) = List.replicate l.length disc := by
  induction l with
  | nil => rfl
  | cons a rest ih =>
      simp only [List.map_cons, List.length_cons, List.replicate_succ, ih]

theorem sliceItems_discs (s : Stream) (disc : ℕ) (src : StreamSource) (a b : ℕ)
    (block : List QueueItem) (h : sliceItems s disc src a b = some block) :
    block.map (fun it => it.discontinuity) = List.replicate block.length disc ∧
      block.length = min (b - a) (s.segments.length - a) := by
  unfold sliceItems at h
  split at h
  · have hb := Option.some_inj.mp h
    have hlen : block.length = (List.take (b - a) (List.drop a s.segments)).length := by
      rw [← hb, List.length_map]
    constructor
    · rw [← hb, map_const_disc, List.length_map]
    · rw [hlen]
      simp [List.length_take, List.length_drop]
  · cases h

theorem cycleBlocks_discs (s : Stream) :
    ∀ (n base idx : ℕ) (blocks : List (List QueueItem)),
      cycleBlocks s base idx n = some blocks →
      blocks.flatten.map (fun it => it.discontinuity) = discShape base (blocks.map List.length) := by
  intro n
  induction n with
  | zero =>
      intro base idx blocks h
      have := Option.some_inj.mp h
      rw [← this]
      rfl
  | succ n ih =>
      intro base idx blocks h
      cases hget : s.sources.get? (idx % s.sources.length) with
      | none => simp only [cycleBlocks, hget] at h; cases h
      | some src =>
          cases hslice : sliceItems s (base + 1) src src.segFrom src.segTo with
          | none => simp only [cycleBlocks, hget, hslice] at h; cases h
          | some block =>
              cases hrec : cycleBlocks s (base + 1) (idx + 1) n with
              | none => simp only [cycleBlocks, hget, hslice, hrec] at h; cases h
              | some rest =>
                  simp only [cycleBlocks, hget, hslice, hrec] at h
                  have hb := Option.some_inj.mp h
                  rw [← hb]
                  simp only [List.flatten_cons, List.map_append, List.map_cons]
                  obtain ⟨hdiscs, _⟩ :=
                    sliceItems_discs s (base + 1) src src.segFrom src.segTo block hslice
                  rw [hdiscs, ih (base + 1) (idx + 1) rest hrec]
                  simp [discShape]

set_option maxRecDepth 20000 in
/-- C6 counterexample: on the loaded library `[mmPkg]` the 720p stream's window
at `now = start + 8` seconds is non-empty (16 items), yet the live source
contributes no segment to it — its 7-step total lies below the playhead offset
8, so `range(offset..)` is empty and `unwrap_or(len)` skips the source.  The
first item therefore carries discontinuity 1 while the playhead's counter is 0:
the render loop emits 16 `#EXT-X-DISCONTINUITY` lines, but the last item's
discontinuity (16) minus the first item's (1) is 15. -/
theorem c6_tag_count_counterexample :
    (Playlist.new 0 [mmPkg]).bind
        (fun pl => (pl.streams.get? 1).bind
          (fun s => (pl.atTime 1 8).bind
            (fun ph => (s.queueTake ph LOOKAHEAD).map
              (fun items => (items.length, discTagCountItems ph.discontinuity items,
                (items.map (fun it => it.discontinuity)).headD 0,
                (items.map (fun it => it.discontinuity)).getLastD 0))))) =
      some (16, 16, 1, 16) ∧
      (16 : ℕ) ≠ 16 - 1 := by
  have hfl : (Int.floor ((8 : ℚ) - 0)).toNat = 8 := by
    rw [show Int.floor ((8 : ℚ) - 0) = (8 : ℤ) by norm_num]; rfl
  have hsec : (Playlist.new 0 [mmPkg]).bind
      (fun pl => (pl.streams.get? 1).bind
        (fun s => (pl.atSeconds 1 8).bind
          (fun ph => (s.queueTake ph LOOKAHEAD).map
            (fun items => (items.length, discTagCountItems ph.discontinuity items,
              (items.map (fun it => it.discontinuity)).headD 0,
              (items.map (fun it => it.discontinuity)).getLastD 0))))) =
      some (16, 16, 1, 16) := by decide
  have hmaps : (Playlist.new 0 [mmPkg]).map Playlist.start = some 0 := by decide
  refine ⟨?_, by decide⟩
  cases hpl : Playlist.new 0 [mmPkg] with
  | none => rw [hpl] at hmaps; cases hmaps
  | some pl =>
      rw [hpl] at hmaps hsec
      have hstart : pl.start = 0 := Option.some_inj.mp hmaps
      simp only [Option.some_bind] at hsec ⊢
      unfold Playlist.atTime
      rw [hstart, hfl]
      exact hsec

/-- C6 amended: in a rendered variant playlist window with at least one queue
item, the number of `#EXT-X-DISCONTINUITY` lines the render loop emits equals
the discontinuity of the last emitted item minus the playhead's discontinuity
sequence (the counter the renderer starts from).  This equals last − first
exactly when the first item carries the playhead's discontinuity, i.e. when
the live source still contributes a segment to the window; when it does not
(see the counterexample), the original last − first claim undercounts. -/
theorem c6_amended_tag_count (s : Stream) (ph : Playhead) (src : StreamSource)
    (items : List QueueItem)
    (hsrc : s.sources.get? ph.sourceIndex = some src)
    (hq : s.queueTake ph LOOKAHEAD = some items) (hne : items ≠ []) :
    discTagCountItems ph.discontinuity items =
      (items.getLast hne).discontinuity - ph.discontinuity := by
  cases hslice : sliceItems s ph.discontinuity src
      (src.segFrom + startSegIdx src ph.offsetInSource) src.segTo with
  | none => simp only [Stream.queueTake, hsrc, hslice] at hq; cases hq
  | some first =>
      cases hcyc : cycleBlocks s ph.discontinuity (ph.sourceIndex + 1) LOOKAHEAD with
      | none => simp only [Stream.queueTake, hsrc, hslice, hcyc] at hq; cases hq
      | some blocks =>
          simp only [Stream.queueTake, hsrc, hslice, hcyc] at hq
          have hitems := Option.some_inj.mp hq
          obtain ⟨hfdiscs, hflen⟩ := sliceItems_discs s ph.discontinuity src
            (src.segFrom + startSegIdx src ph.offsetInSource) src.segTo first hslice
          have hbdiscs := cycleBlocks_discs s LOOKAHEAD ph.discontinuity
            (ph.sourceIndex + 1) blocks hcyc
          have hdiscs : items.map (fun it => it.discontinuity) =
              ((List.replicate first.length ph.discontinuity ++
                discShape ph.discontinuity (blocks.map List.length)).take LOOKAHEAD) := by
            rw [← hitems, List.map_take, List.map_append, hfdiscs, hbdiscs]
          have hchain : List.Chain (· ≤ ·) ph.discontinuity
              (items.map (fun it => it.discontinuity)) := by
            rw [hdiscs]
            apply chain_le_take
            apply chain_le_append
            · exact chain_le_replicate _ _ (le_refl _) _
            · rw [getLastD_replicate_self]
              exact chain_discShape _ _
          have hcount := discTagCount_chain ph.discontinuity
            (items.map (fun it => it.discontinuity)) hchain
          have hlast : (items.map (fun it => it.discontinuity)).getLastD ph.discontinuity =
              (items.getLast hne).discontinuity := by
            rw [List.getLastD_eq_getLast?, List.getLast?_map, List.getLast?_eq_getLast items hne]
            rfl
          unfold discTagCountItems
          rw [hcount, hlast]

set_option maxRecDepth 20000 in
/-- Witness for the amended C6 on the concrete two-source stream and
playhead. -/
theorem c6_amended_tag_count_witness :
    ∃ items, wStream.queueTake wPlayhead LOOKAHEAD = some items ∧
      ∃ hne : items ≠ [], discTagCountItems wPlayhead.discontinuity items =
        (items.getLast hne).discontinuity - wPlayhead.discontinuity := by
  refine ⟨(wStream.queueTake wPlayhead LOOKAHEAD).get (by decide),
    (Option.some_get _).symm, by decide, ?_⟩
  exact c6_amended_tag_count wStream wPlayhead wSrcA _ (by decide)
    (Option.some_get _).symm (by decide)

end Frameserve
